import Mathlib

/-!
Verification of the compilation core in `src/compiler/state.rs` of the
kodama repository: the recursive, memoized resolution of shallow documents
into compiled sections, with relationship (parent/backlink) accumulation,
orphan sweeping and cycle degradation.

The embedding is a shallow one.  The mutually recursive Rust procedures
`fetch_section`, `compile_shallow` (its content loop and its metadata loop)
are modelled as a single fuel-indexed interpreter `run` over a request type
`Req`; fuel only bounds the recursion depth, and a sufficiency theorem shows
that enough fuel always exists, so no behaviour is lost.  Rust `HashMap`s
are modelled as association lists (`alookup`/`aupdate`/`aerase`), `HashSet`s
of slugs as duplicate-free insertion lists, and the `eprintln!` diagnostics
as an explicit list carried in the state.  Functions of the crate that are
outside `src/compiler/state.rs` (slug formation, HTML rendering, metadata
accessors, the relationship accumulator internals) are modelled from the
specification; each such definition is marked `Modelled from the spec`.
-/

namespace Kodama

/-- Display option of an embed; the spec requires at least the
`details_open` boolean. Modelled from the spec (section.rs is outside the
given source). -/
structure DisplayOption where
  details_open : Bool
deriving DecidableEq, Repr

/-- `LazyContent::Embed` payload: target url, display option, optional
title override. -/
structure EmbedContent where
  url : String
  option : DisplayOption
  title : Option String
deriving DecidableEq, Repr

/-- `LazyContent::Local` payload: target slug and optional display text. -/
structure LocalLink where
  slug : String
  text : Option String
deriving DecidableEq, Repr

/-- `LazyContent`: one item of a lazy (unresolved) content list. -/
inductive LazyContent where
  | Plain : String → LazyContent
  | Embed : EmbedContent → LazyContent
  | Local : LocalLink → LazyContent
deriving DecidableEq, Repr

/-- `HTMLContent`: either fully rendered markup or an ordered list of
unresolved items. -/
inductive HTMLContent where
  | Plain : String → HTMLContent
  | Lazy : List LazyContent → HTMLContent
deriving DecidableEq, Repr

/-- `HTMLMetaData`: field name to raw unresolved content. -/
abbrev HTMLMetaData := List (String × HTMLContent)

/-- `EntryMetaData`: field name to resolved HTML string. -/
abbrev EntryMetaData := List (String × String)

/-- A parsed-but-unresolved document unit. -/
structure ShallowSection where
  metadata : HTMLMetaData
  content : HTMLContent
deriving DecidableEq, Repr

/-- One content piece of a compiled section: resolved markup or an embedded
(already resolved) section.  Parameterised to allow the nested recursion in
`Section`. -/
inductive SectionContent (σ : Type) where
  | Plain : String → SectionContent σ
  | Embed : σ → SectionContent σ
deriving DecidableEq, Repr

/-- A compiled section: resolved metadata, ordered content pieces, the set
of reference slugs, and the display option (overridden per embed site). -/
inductive Section where
  | mk : EntryMetaData → List (SectionContent Section) → List String → DisplayOption → Section

abbrev SectionContents := List (SectionContent Section)

def Section.metadata : Section → EntryMetaData
  | .mk m _ _ _ => m

def Section.children : Section → SectionContents
  | .mk _ c _ _ => c

def Section.references : Section → List String
  | .mk _ _ r _ => r

def Section.option : Section → DisplayOption
  | .mk _ _ _ o => o

/-- Relationship accumulator.  Modelled from the spec: it records
parent edges (child embedded-by parent) and backlink edges
(target cited-by source), append/merge-only. -/
structure Callback where
  parents : List (String × String)
  backlinks : List (String × String)
deriving DecidableEq, Repr

def Callback.new : Callback := ⟨[], []⟩

/-- `Callback::insert_parent(child, parent)`: record a parent edge.
Modelled from the spec (callback.rs is outside the given source). -/
def Callback.insert_parent (cb : Callback) (child parent : String) : Callback :=
  { cb with parents := cb.parents ++ [(child, parent)] }

/-- `Callback::insert_backlinks(target, sources)`: record one backlink edge
per source. Modelled from the spec. -/
def Callback.insert_backlinks (cb : Callback) (target : String)
    (sources : List String) : Callback :=
  { cb with backlinks := cb.backlinks ++ sources.map (fun s => (target, s)) }

/-- `Callback::merge`: append the per-node scratch accumulator into the
global one. Modelled from the spec. -/
def Callback.merge (cb other : Callback) : Callback :=
  ⟨cb.parents ++ other.parents, cb.backlinks ++ other.backlinks⟩

/-- The compiler state: pending (`residued`) documents, compiled sections,
the frozen metadata snapshot, the relationship accumulator, and the list of
emitted missing-target diagnostics (each `(referrer, missing)`), modelling
the `eprintln!` calls. -/
structure CompileState where
  residued : List (String × ShallowSection)
  compiled : List (String × Section)
  metadata : List (String × HTMLMetaData)
  callback : Callback
  diagnostics : List (String × String)

/- Association list operations modelling `HashMap`. -/

/-- First-match lookup, modelling `HashMap::get`. -/
def alookup {α : Type} : List (String × α) → String → Option α
  | [], _ => none
  | (k, v) :: rest, s => if k = s then some v else alookup rest s

/-- Remove every binding of a key, modelling `HashMap::remove`. -/
def aerase {α : Type} (l : List (String × α)) (s : String) : List (String × α) :=
  l.filter (fun p => p.1 ≠ s)

/-- Insert-or-replace, modelling `HashMap::insert` / `update`. -/
def aupdate {α : Type} : List (String × α) → String → α → List (String × α)
  | [], s, v => [(s, v)]
  | (k, w) :: rest, s, v =>
    if k = s then (s, v) :: rest else (k, w) :: aupdate rest s v

/-- The key list of an association list. -/
def akeys {α : Type} (l : List (String × α)) : List String :=
  l.map (fun p => p.1)

/-- Set-style insertion into a duplicate-free list, modelling
`HashSet::insert`. -/
def sinsert (l : List String) (s : String) : List String :=
  if s ∈ l then l else l ++ [s]

/-- Set-style union, modelling `HashSet::extend`. -/
def sextend (l m : List String) : List String :=
  m.foldl sinsert l

/- Leaf functions of the crate outside `state.rs`, modelled from the spec. -/

/-- The identity metadata field key. Modelled from the spec: the key whose
value is the slug of the document. -/
def KEY_SLUG : String := "slug"

/-- `slug::to_slug`: canonicalise an URL/reference string to a slug.
Modelled from the spec ("a function mapping an arbitrary URL/reference
string to a canonical slug"); modelled as the identity, i.e. embed URLs are
given directly as canonical slugs. -/
def to_slug (url : String) : String := url

/-- `config::full_html_url`: canonical external URL of a slug. Modelled
from the spec. -/
def full_html_url (slug : String) : String := "/" ++ slug ++ ".html"

/-- The fixed marker identifying an internal link. Modelled from the spec
(`recorder::State::LocalLink.strify()`). -/
def localLinkMarker : String := "local-link"

/-- `html_flake::html_link(url, label, text, class)`: render an anchor.
Modelled from the spec: underlying target, accessible label, visible text,
fixed marker. -/
def html_link (url label text cls : String) : String :=
  "<a href=" ++ url ++ " title=" ++ label ++ " class=" ++ cls ++ ">" ++ text ++ "</a>"

/-- `HTMLMetaData::page_title`: the display title of a document. Modelled
from the spec ("look up the display title of the target from the metadata
snapshot"). -/
def page_title (m : HTMLMetaData) : Option String :=
  match alookup m "title" with
  | some (.Plain s) => some s
  | _ => none

/-- `HTMLMetaData::is_enable_backlinks`: whether the snapshot explicitly
enables backlinks; Modelled from the spec ("false only if the snapshot
explicitly disables backlinks"). -/
def metaEnableBacklinks (m : HTMLMetaData) : Bool :=
  match alookup m "backlinks" with
  | some (.Plain "false") => false
  | _ => true

/-- `HTMLMetaData::is_asref`: whether the snapshot explicitly marks the
document as a reference target. Modelled from the spec. -/
def is_asref (m : HTMLMetaData) : Bool :=
  match alookup m "asref" with
  | some (.Plain "true") => true
  | _ => false

/-- `HTMLMetaData::data_taxon`: the taxonomy label of a document. Modelled
from the spec. -/
def data_taxon (m : HTMLMetaData) : Option String :=
  match alookup m "taxon" with
  | some (.Plain s) => some s
  | _ => none

/-- `Taxon::is_reference`: whether a taxonomy label is reference-like.
Modelled from the spec ("a taxonomy predicate mapping a category label to
is-reference-like"). -/
def Taxon.is_reference (s : String) : Bool := s = "reference"

/-- `MetaData::compute_textual_attrs`: the external hook deriving textual
attributes. Modelled from the spec (excerpt/word-count derivation is out of
scope); modelled as the identity. -/
def compute_textual_attrs (m : HTMLMetaData) : HTMLMetaData := m

/-- `ShallowSection::slug()`: the slug of the document, as stored under the
identity key of its metadata. Modelled from the spec and from
`metadata_to_section`, which installs the slug that `slug()` reads. -/
def ShallowSection.slugOf (sh : ShallowSection) : String :=
  match alookup sh.metadata KEY_SLUG with
  | some (.Plain s) => s
  | _ => ""

/-- `Section::spanned()`: the rendered HTML of a compiled metadata field.
Modelled from the spec; modelled as the concatenation of the plain content
pieces. -/
def spannedAux : SectionContents → String
  | [] => ""
  | .Plain h :: rest => h ++ spannedAux rest
  | .Embed _ :: rest => spannedAux rest

def Section.spanned (sec : Section) : String :=
  spannedAux sec.children

/-- `Section::new(metadata, children, references)`: the display option of a
freshly compiled section is the default one (it is replaced at each embed
site). Modelled from the spec. -/
def defaultOption : DisplayOption := ⟨false⟩

def Section.new (md : EntryMetaData) (children : SectionContents)
    (references : List String) : Section :=
  Section.mk md children references defaultOption

/- Embedding of `state.rs` itself. -/

/-- `CompileState::get_metadata`. -/
def get_metadata (st : CompileState) (slug : String) : Option HTMLMetaData :=
  alookup st.metadata slug

/-- `CompileState::is_enable_backlinks` (lines 194-199). -/
def is_enable_backlinks (st : CompileState) (slug : String) : Bool :=
  match alookup st.metadata slug with
  | some e => metaEnableBacklinks e
  | none => true

/-- `CompileState::is_reference` (lines 201-206). -/
def is_reference (st : CompileState) (slug : String) : Bool :=
  match alookup st.metadata slug with
  | some e => is_asref e || Taxon.is_reference ((data_taxon e).getD "")
  | none => false

/-- `CompileState::metadata_to_section` (lines 177-188): wrap one metadata
raw content of one field as a synthetic single-field shallow document with the
pseudo-slug `"<current-slug>:metadata"`. -/
def metadata_to_section (content : HTMLContent) (current_slug : String) : ShallowSection :=
  { metadata := [(KEY_SLUG, HTMLContent.Plain (current_slug ++ ":metadata"))],
    content := content }

/-- Clone an already resolved target at an embed site: replace its display
option by the option of this embed and, if given, override its `title` metadata
field (lines 105-111). -/
def embedClone (refered : Section) (ec : EmbedContent) : Section :=
  Section.mk
    (match ec.title with
     | some t => aupdate refered.metadata "title" t
     | none => refered.metadata)
    refered.children refered.references ec.option

/-- The display title looked up for a local link (lines 116-118): empty
string if the slug is unknown or has no title. -/
def articleTitleOf (st : CompileState) (s : String) : String :=
  match get_metadata st s with
  | some m => (page_title m).getD ""
  | none => ""

/-- The rendered anchor of a local link (lines 137-145). -/
def renderLocal (st : CompileState) (ll : LocalLink) : String :=
  html_link (full_html_url ll.slug)
    (articleTitleOf st ll.slug ++ " [" ++ ll.slug ++ "]")
    ((ll.text).getD (articleTitleOf st ll.slug))
    localLinkMarker

/-- A request to the resolution engine: the four mutually recursive
procedures of `state.rs` (`fetch_section`, `compile_shallow`, its content
item loop, and its metadata field loop). -/
inductive Req where
  | fetch : String → Req
  | shallow : ShallowSection → Req
  | items : String → List String → Callback → List LazyContent → Req
  | meta : String → EntryMetaData → List (String × HTMLContent) → Req

/-- The response matching each request. -/
inductive Resp where
  | fetched : Option Section → Resp
  | built : Section → Resp
  | itemsDone : SectionContents → List String → Callback → Resp
  | metaDone : EntryMetaData → Resp

/-- The resolution engine of `state.rs` (lines 57-175), as one fuel-indexed
interpreter.  `none` means the fuel bound was hit (shown sufficient later);
otherwise the response and the updated state are returned.

* `.fetch slug` is `fetch_section` (lines 57-68): memoized lookup, removal
  from `residued` before the recursive descent, `none`-result on a miss.
* `.shallow sh` is `compile_shallow` (lines 70-175): resolve the content,
  merge the per-node accumulator, resolve the metadata fields, remove the
  slug from `residued`, insert the built section into `compiled`.
* `.items slug refs cb lcs` is the content loop (lines 82-149), threading
  the reference set and the per-node accumulator.
* `.meta slug acc entries` is the metadata field loop (lines 158-167),
  skipping the identity key and compiling each field through
  `metadata_to_section`. -/
def run : Nat → CompileState → Req → Option (Resp × CompileState)
  | 0, _, _ => none
  | fuel + 1, st, .fetch slug =>
    match alookup st.compiled slug with
    | some sec => some (.fetched (some sec), st)
    | none =>
      match alookup st.residued slug with
      | some sh =>
        match run fuel { st with residued := aerase st.residued slug } (.shallow sh) with
        | some (.built sec, st₁) => some (.fetched (some sec), st₁)
        | _ => none
      | none => some (.fetched none, st)
  | fuel + 1, st, .shallow sh =>
    match sh.content with
    | .Plain html =>
      match run fuel st (.meta sh.slugOf (aupdate [] KEY_SLUG sh.slugOf) sh.metadata) with
      | some (.metaDone md, st₁) =>
        let sec := Section.new md [SectionContent.Plain html] []
        some (.built sec,
          { st₁ with
            residued := aerase st₁.residued sh.slugOf,
            compiled := aupdate st₁.compiled sh.slugOf sec })
      | _ => none
    | .Lazy lcs =>
      match run fuel st (.items sh.slugOf [] Callback.new lcs) with
      | some (.itemsDone children refs cb, st₁) =>
        match run fuel { st₁ with callback := st₁.callback.merge cb }
            (.meta sh.slugOf (aupdate [] KEY_SLUG sh.slugOf) sh.metadata) with
        | some (.metaDone md, st₂) =>
          let sec := Section.new md children refs
          some (.built sec,
            { st₂ with
              residued := aerase st₂.residued sh.slugOf,
              compiled := aupdate st₂.compiled sh.slugOf sec })
        | _ => none
      | _ => none
  | _ + 1, st, .items _ refs cb [] => some (.itemsDone [] refs cb, st)
  | fuel + 1, st, .items slug refs cb (.Plain html :: rest) =>
    match run fuel st (.items slug refs cb rest) with
    | some (.itemsDone cs r c, st₁) =>
      some (.itemsDone (SectionContent.Plain html :: cs) r c, st₁)
    | _ => none
  | fuel + 1, st, .items slug refs cb (.Embed ec :: rest) =>
    match run fuel st (.fetch (to_slug ec.url)) with
    | some (.fetched none, st₁) =>
      run fuel { st₁ with diagnostics := st₁.diagnostics ++ [(slug, to_slug ec.url)] }
        (.items slug refs cb rest)
    | some (.fetched (some refered), st₁) =>
      match run fuel st₁
          (.items slug
            (if ec.option.details_open then sextend refs refered.references else refs)
            (cb.insert_parent (to_slug ec.url) slug) rest) with
      | some (.itemsDone cs r c, st₂) =>
        some (.itemsDone (SectionContent.Embed (embedClone refered ec) :: cs) r c, st₂)
      | _ => none
    | _ => none
  | fuel + 1, st, .items slug refs cb (.Local ll :: rest) =>
    match run fuel st
        (.items slug
          (if is_reference st ll.slug then sinsert refs ll.slug else refs)
          (if ll.slug ≠ slug ∧ ll.slug ++ ":metadata" ≠ slug ∧ is_enable_backlinks st ll.slug
           then cb.insert_backlinks ll.slug [slug] else cb)
          rest) with
    | some (.itemsDone cs r c, st₁) =>
      some (.itemsDone (SectionContent.Plain (renderLocal st ll) :: cs) r c, st₁)
    | _ => none
  | _ + 1, st, .meta _ acc [] => some (.metaDone acc, st)
  | fuel + 1, st, .meta slug acc ((key, value) :: rest) =>
    if key = KEY_SLUG then run fuel st (.meta slug acc rest)
    else
      match run fuel st (.shallow (metadata_to_section value slug)) with
      | some (.built sec, st₁) =>
        run fuel st₁ (.meta slug (aupdate acc key sec.spanned) rest)
      | _ => none

/-- `CompileState::fetch_section`, as the `.fetch` entry point of `run`. -/
def fetch_section (fuel : Nat) (st : CompileState) (slug : String) :
    Option (Option Section × CompileState) :=
  match run fuel st (.fetch slug) with
  | some (.fetched r, st₁) => some (r, st₁)
  | _ => none

/-- `CompileState::compile_shallow`, as the `.shallow` entry point of
`run`. -/
def compile_shallow (fuel : Nat) (st : CompileState) (sh : ShallowSection) :
    Option (Section × CompileState) :=
  match run fuel st (.shallow sh) with
  | some (.built sec, st₁) => some (sec, st₁)
  | _ => none

/-- The outcome of `compile` / `compile_all`: success, a Rust panic (the
`unwrap` of a failed lookup in `compile`, line 34), or fuel exhaustion. -/
inductive Outcome (α : Type) where
  | ok : α → Outcome α
  | panicked : Outcome α
  | fuelOut : Outcome α

def Outcome.isPanic {α : Type} : Outcome α → Bool
  | .panicked => true
  | _ => false

def Outcome.isOk {α : Type} : Outcome α → Bool
  | .ok _ => true
  | _ => false

/-- `CompileState::compile` (lines 33-35): `fetch_section(slug).unwrap()`;
the `unwrap` of a `None` result is a panic. -/
def compile (fuel : Nat) (st : CompileState) (slug : String) :
    Outcome (Section × CompileState) :=
  match fetch_section fuel st slug with
  | none => .fuelOut
  | some (none, _) => .panicked
  | some (some sec, st₁) => .ok (sec, st₁)

/-- The sweep loop of `compile_all` (lines 51-54): compile every slug of
the given snapshot of `residued` keys. -/
def sweep (fuel : Nat) : CompileState → List String → Outcome CompileState
  | st, [] => .ok st
  | st, s :: rest =>
    match compile fuel st s with
    | .ok (_, st₁) => sweep fuel st₁ rest
    | .panicked => .panicked
    | .fuelOut => .fuelOut

/-- `CompileState::compile_all` (lines 37-55): freeze the metadata
snapshot (running the textual-attribute hook on each pending document),
compile the root slug `"index"`, then sweep the remaining pending slugs. -/
def compile_all (fuel : Nat) (st : CompileState) : Outcome CompileState :=
  let st₀ : CompileState :=
    { st with
      residued := st.residued.map
        (fun p => (p.1, { p.2 with metadata := compute_textual_attrs p.2.metadata })),
      metadata := st.residued.map (fun p => (p.1, compute_textual_attrs p.2.metadata)) }
  match compile fuel st₀ "index" with
  | .ok (_, st₁) => sweep fuel st₁ (akeys st₁.residued)
  | .panicked => .panicked
  | .fuelOut => .fuelOut

/- Termination measures.  `run` is fuel-indexed; the following sizes bound
the recursion depth, so that the sufficiency theorem below shows fuel is
never the limiting factor on any input. -/

/-- Size of a content value: one step plus one step per lazy item. -/
def csize : HTMLContent → Nat
  | .Plain _ => 1
  | .Lazy items => 1 + items.length

/-- Depth weight of one metadata entry: the identity key is skipped, any
other key costs a descent into its wrapped content. -/
def mweight (p : String × HTMLContent) : Nat :=
  if p.1 = KEY_SLUG then 1 else 3 + csize p.2

/-- Depth weight of a metadata table. -/
def msize (l : List (String × HTMLContent)) : Nat :=
  (l.map mweight).sum

/-- Depth weight of a shallow section. -/
def ssize (sh : ShallowSection) : Nat :=
  1 + csize sh.content + msize sh.metadata

/-- Potential of the pending table: total depth weight of everything that
can still be pulled in by a fetch. -/
def phi (res : List (String × ShallowSection)) : Nat :=
  (res.map (fun p => 1 + ssize p.2)).sum

/-- Depth bound of one request in one state. -/
def rbound (st : CompileState) : Req → Nat
  | .fetch _ => 1 + phi st.residued
  | .shallow sh => ssize sh + phi st.residued
  | .items _ _ _ lcs => 1 + lcs.length + phi st.residued
  | .meta _ _ entries => 1 + msize entries + phi st.residued

/-- A slug of the reserved synthetic form `"<slug>:metadata"`. -/
def isMetaSlug (s : String) : Prop := ∃ t, s = t ++ ":metadata"

/-- Well-formedness of a compile state: keys are duplicate-free, each
pending entry is keyed by its own slug, and a slug is pending or compiled
but never both. -/
abbrev Inv (st : CompileState) : Prop :=
  (akeys st.residued).Nodup ∧ (akeys st.compiled).Nodup ∧
    (∀ p ∈ st.residued, p.2.slugOf = p.1) ∧
    (∀ s ∈ akeys st.residued, s ∉ akeys st.compiled)

/- Association list lemmas. -/

theorem akeys_nil {α : Type} : akeys ([] : List (String × α)) = [] := rfl

theorem akeys_cons {α : Type} (p : String × α) (l : List (String × α)) :
    akeys (p :: l) = p.1 :: akeys l := rfl

theorem aerase_cons {α : Type} (p : String × α) (l : List (String × α)) (s : String) :
    aerase (p :: l) s = if p.1 = s then aerase l s else p :: aerase l s := by
  by_cases h : p.1 = s <;> simp [aerase, List.filter_cons, h]

theorem aerase_sublist {α : Type} (l : List (String × α)) (s : String) :
    (aerase l s).Sublist l :=
  List.filter_sublist l

theorem aerase_subset {α : Type} (l : List (String × α)) (s : String) :
    ∀ p ∈ aerase l s, p ∈ l :=
  fun _ hp => (aerase_sublist l s).subset hp

theorem alookup_cons {α : Type} (k : String) (w : α) (rest : List (String × α)) (s : String) :
    alookup ((k, w) :: rest) s = if k = s then some w else alookup rest s := rfl

theorem aupdate_cons {α : Type} (p : String × α) (l : List (String × α)) (s : String) (v : α) :
    aupdate (p :: l) s v = if p.1 = s then (s, v) :: l else p :: aupdate l s v := by
  obtain ⟨k, w⟩ := p
  rfl

theorem alookup_eq_none {α : Type} (l : List (String × α)) (s : String) :
    alookup l s = none ↔ s ∉ akeys l := by
  induction l with
  | nil => simp [alookup, akeys]
  | cons p rest ih =>
    obtain ⟨k, v⟩ := p
    by_cases h : k = s
    · subst h
      simp [alookup, akeys_cons]
    · rw [akeys_cons, alookup_cons, if_neg h]
      rw [ih]
      simp only [List.mem_cons]
      constructor
      · intro hn hm
        rcases hm with rfl | hm
        · exact h rfl
        · exact hn hm
      · intro hn hm
        exact hn (Or.inr hm)

theorem mem_akeys_exists {α : Type} {l : List (String × α)} {s : String}
    (h : s ∈ akeys l) : ∃ v, alookup l s = some v := by
  cases hl : alookup l s with
  | some v => exact ⟨v, rfl⟩
  | none => exact absurd h ((alookup_eq_none l s).mp hl)

theorem alookup_mem {α : Type} {l : List (String × α)} {s : String} {v : α}
    (h : alookup l s = some v) : (s, v) ∈ l := by
  induction l with
  | nil => simp [alookup] at h
  | cons p rest ih =>
    obtain ⟨k, w⟩ := p
    by_cases hk : k = s
    · subst hk
      simp [alookup] at h
      simp [h]
    · simp [alookup, hk] at h
      exact List.mem_cons_of_mem _ (ih h)

theorem mem_akeys_of_alookup {α : Type} {l : List (String × α)} {s : String} {v : α}
    (h : alookup l s = some v) : s ∈ akeys l := by
  have := alookup_mem h
  simp only [akeys, List.mem_map]
  exact ⟨(s, v), this, rfl⟩

theorem mem_akeys_aerase {α : Type} {l : List (String × α)} {s t : String} :
    t ∈ akeys (aerase l s) ↔ t ∈ akeys l ∧ t ≠ s := by
  induction l with
  | nil => simp [aerase, akeys]
  | cons p rest ih =>
    rw [aerase_cons]
    by_cases h : p.1 = s
    · rw [if_pos h, akeys_cons, ih]
      subst h
      constructor
      · rintro ⟨hm, hne⟩
        exact ⟨List.mem_cons_of_mem _ hm, hne⟩
      · rintro ⟨hm, hne⟩
        rcases List.mem_cons.mp hm with rfl | hm
        · exact absurd rfl hne
        · exact ⟨hm, hne⟩
    · rw [if_neg h, akeys_cons, akeys_cons]
      simp only [List.mem_cons, ih]
      constructor
      · rintro (rfl | ⟨hm, hne⟩)
        · exact ⟨Or.inl rfl, h⟩
        · exact ⟨Or.inr hm, hne⟩
      · rintro ⟨rfl | hm, hne⟩
        · exact Or.inl rfl
        · exact Or.inr ⟨hm, hne⟩

theorem nodup_akeys_aerase {α : Type} {l : List (String × α)} {s : String}
    (h : (akeys l).Nodup) : (akeys (aerase l s)).Nodup := by
  simp only [akeys] at h ⊢
  exact ((aerase_sublist l s).map (fun p => p.1)).nodup h

theorem alookup_aerase_self {α : Type} (l : List (String × α)) (s : String) :
    alookup (aerase l s) s = none := by
  rw [alookup_eq_none]
  intro h
  exact (mem_akeys_aerase.mp h).2 rfl

theorem alookup_aupdate_self {α : Type} (l : List (String × α)) (s : String) (v : α) :
    alookup (aupdate l s v) s = some v := by
  induction l with
  | nil => simp [aupdate, alookup]
  | cons p rest ih =>
    rw [aupdate_cons]
    by_cases hk : p.1 = s
    · rw [if_pos hk, alookup_cons, if_pos rfl]
    · rw [if_neg hk]
      obtain ⟨k, w⟩ := p
      rw [alookup_cons, if_neg hk, ih]

theorem alookup_aupdate_ne {α : Type} (l : List (String × α)) {s t : String} (v : α)
    (h : t ≠ s) : alookup (aupdate l s v) t = alookup l t := by
  induction l with
  | nil =>
    simp only [aupdate, alookup]
    rw [if_neg (fun hh => h hh.symm)]
  | cons p rest ih =>
    obtain ⟨k, w⟩ := p
    rw [aupdate_cons]
    by_cases hk : k = s
    · rw [if_pos hk, alookup_cons, alookup_cons, if_neg (fun hh => h hh.symm)]
      subst hk
      rw [if_neg (fun hh => h hh.symm)]
    · rw [if_neg hk, alookup_cons, alookup_cons, ih]

theorem mem_akeys_aupdate {α : Type} {l : List (String × α)} {s t : String} {v : α} :
    t ∈ akeys (aupdate l s v) ↔ t ∈ akeys l ∨ t = s := by
  induction l with
  | nil => simp [aupdate, akeys]
  | cons p rest ih =>
    rw [aupdate_cons]
    by_cases hk : p.1 = s
    · rw [if_pos hk, akeys_cons, akeys_cons]
      simp only [List.mem_cons]
      subst hk
      tauto
    · rw [if_neg hk, akeys_cons, akeys_cons]
      simp only [List.mem_cons, ih]
      tauto

theorem nodup_akeys_aupdate {α : Type} {l : List (String × α)} {s : String} {v : α}
    (h : (akeys l).Nodup) : (akeys (aupdate l s v)).Nodup := by
  induction l with
  | nil => simp [aupdate, akeys]
  | cons p rest ih =>
    rw [akeys_cons, List.nodup_cons] at h
    rw [aupdate_cons]
    by_cases hk : p.1 = s
    · rw [if_pos hk, akeys_cons, List.nodup_cons]
      subst hk
      exact ⟨h.1, h.2⟩
    · rw [if_neg hk, akeys_cons, List.nodup_cons]
      refine ⟨?_, ih h.2⟩
      intro hmem
      rcases mem_akeys_aupdate.mp hmem with hm | hm
      · exact h.1 hm
      · exact hk hm

/- Potential lemmas. -/

theorem phi_nil : phi [] = 0 := rfl

theorem phi_cons (p : String × ShallowSection) (l : List (String × ShallowSection)) :
    phi (p :: l) = 1 + ssize p.2 + phi l := rfl

theorem phi_aerase_le (l : List (String × ShallowSection)) (s : String) :
    phi (aerase l s) ≤ phi l := by
  induction l with
  | nil => simp [aerase]
  | cons p rest ih =>
    rw [aerase_cons]
    by_cases h : p.1 = s
    · rw [if_pos h, phi_cons]
      omega
    · rw [if_neg h, phi_cons, phi_cons]
      omega

theorem phi_alookup {l : List (String × ShallowSection)} {s : String} {sh : ShallowSection}
    (h : alookup l s = some sh) : 1 + ssize sh + phi (aerase l s) ≤ phi l := by
  induction l with
  | nil => simp [alookup] at h
  | cons p rest ih =>
    obtain ⟨k, v⟩ := p
    by_cases hk : k = s
    · subst hk
      rw [alookup_cons, if_pos rfl, Option.some.injEq] at h
      subst h
      rw [aerase_cons, if_pos rfl, phi_cons]
      show 1 + ssize v + phi (aerase rest k) ≤ 1 + ssize v + phi rest
      have := phi_aerase_le rest k
      omega
    · rw [alookup_cons, if_neg hk] at h
      have := ih h
      rw [aerase_cons, if_neg hk, phi_cons, phi_cons]
      show 1 + ssize sh + (1 + ssize v + phi (aerase rest s)) ≤ 1 + ssize v + phi rest
      omega

/- Set-insertion lemmas. -/

theorem mem_sinsert {l : List String} {s t : String} :
    t ∈ sinsert l s ↔ t ∈ l ∨ t = s := by
  by_cases h : s ∈ l
  · simp only [sinsert, if_pos h]
    constructor
    · exact Or.inl
    · rintro (hh | rfl)
      · exact hh
      · exact h
  · simp [sinsert, if_neg h]

theorem mem_sextend {m : List String} : ∀ {l : List String} {t : String},
    t ∈ sextend l m ↔ t ∈ l ∨ t ∈ m := by
  induction m with
  | nil => simp [sextend]
  | cons s rest ih =>
    intro l t
    simp only [sextend, List.foldl_cons]
    rw [show List.foldl sinsert (sinsert l s) rest = sextend (sinsert l s) rest from rfl]
    rw [ih, mem_sinsert]
    simp only [List.mem_cons]
    tauto

theorem phi_sublist_le {l₁ l₂ : List (String × ShallowSection)} (h : l₁.Sublist l₂) :
    phi l₁ ≤ phi l₂ :=
  List.Sublist.sum_le_sum (h.map _) (fun a _ => Nat.zero_le a)

/- Step equations of `run`, used to unfold one recursion step at a time. -/

theorem run_fetch_hit (f : Nat) (st : CompileState) (slug : String) (sec : Section)
    (hc : alookup st.compiled slug = some sec) :
    run (f + 1) st (.fetch slug) = some (.fetched (some sec), st) := by
  simp only [run]
  rw [hc]

theorem run_fetch_pending (f : Nat) (st : CompileState) (slug : String) (sh : ShallowSection)
    (hc : alookup st.compiled slug = none) (hr : alookup st.residued slug = some sh) :
    run (f + 1) st (.fetch slug) =
      match run f { st with residued := aerase st.residued slug } (.shallow sh) with
      | some (.built sec, st₁) => some (.fetched (some sec), st₁)
      | _ => none := by
  simp only [run]
  rw [hc, hr]

theorem run_fetch_miss (f : Nat) (st : CompileState) (slug : String)
    (hc : alookup st.compiled slug = none) (hr : alookup st.residued slug = none) :
    run (f + 1) st (.fetch slug) = some (.fetched none, st) := by
  simp only [run]
  rw [hc, hr]

theorem run_shallow_plain (f : Nat) (st : CompileState) (sh : ShallowSection) (html : String)
    (hcc : sh.content = .Plain html) :
    run (f + 1) st (.shallow sh) =
      match run f st (.meta sh.slugOf (aupdate [] KEY_SLUG sh.slugOf) sh.metadata) with
      | some (.metaDone md, st₁) =>
        some (.built (Section.new md [SectionContent.Plain html] []),
          { st₁ with
            residued := aerase st₁.residued sh.slugOf,
            compiled := aupdate st₁.compiled sh.slugOf
              (Section.new md [SectionContent.Plain html] []) })
      | _ => none := by
  simp only [run]
  rw [hcc]

theorem run_shallow_lazy (f : Nat) (st : CompileState) (sh : ShallowSection)
    (lcs : List LazyContent) (hcc : sh.content = .Lazy lcs) :
    run (f + 1) st (.shallow sh) =
      match run f st (.items sh.slugOf [] Callback.new lcs) with
      | some (.itemsDone children refs cb, st₁) =>
        (match run f { st₁ with callback := st₁.callback.merge cb }
            (.meta sh.slugOf (aupdate [] KEY_SLUG sh.slugOf) sh.metadata) with
        | some (.metaDone md, st₂) =>
          some (.built (Section.new md children refs),
            { st₂ with
              residued := aerase st₂.residued sh.slugOf,
              compiled := aupdate st₂.compiled sh.slugOf (Section.new md children refs) })
        | _ => none)
      | _ => none := by
  simp only [run]
  rw [hcc]

theorem run_items_nil (f : Nat) (st : CompileState) (slug : String) (refs : List String)
    (cb : Callback) :
    run (f + 1) st (.items slug refs cb []) = some (.itemsDone [] refs cb, st) := rfl

theorem run_items_plain (f : Nat) (st : CompileState) (slug : String) (refs : List String)
    (cb : Callback) (html : String) (rest : List LazyContent) :
    run (f + 1) st (.items slug refs cb (.Plain html :: rest)) =
      match run f st (.items slug refs cb rest) with
      | some (.itemsDone cs r c, st₁) =>
        some (.itemsDone (SectionContent.Plain html :: cs) r c, st₁)
      | _ => none := rfl

theorem run_items_embed (f : Nat) (st : CompileState) (slug : String) (refs : List String)
    (cb : Callback) (ec : EmbedContent) (rest : List LazyContent) :
    run (f + 1) st (.items slug refs cb (.Embed ec :: rest)) =
      match run f st (.fetch (to_slug ec.url)) with
      | some (.fetched none, st₁) =>
        run f { st₁ with diagnostics := st₁.diagnostics ++ [(slug, to_slug ec.url)] }
          (.items slug refs cb rest)
      | some (.fetched (some refered), st₁) =>
        (match run f st₁
            (.items slug
              (if ec.option.details_open then sextend refs refered.references else refs)
              (cb.insert_parent (to_slug ec.url) slug) rest) with
        | some (.itemsDone cs r c, st₂) =>
          some (.itemsDone (SectionContent.Embed (embedClone refered ec) :: cs) r c, st₂)
        | _ => none)
      | _ => none := rfl

theorem run_items_local (f : Nat) (st : CompileState) (slug : String) (refs : List String)
    (cb : Callback) (ll : LocalLink) (rest : List LazyContent) :
    run (f + 1) st (.items slug refs cb (.Local ll :: rest)) =
      match run f st
          (.items slug
            (if is_reference st ll.slug then sinsert refs ll.slug else refs)
            (if ll.slug ≠ slug ∧ ll.slug ++ ":metadata" ≠ slug ∧ is_enable_backlinks st ll.slug
             then cb.insert_backlinks ll.slug [slug] else cb)
            rest) with
      | some (.itemsDone cs r c, st₁) =>
        some (.itemsDone (SectionContent.Plain (renderLocal st ll) :: cs) r c, st₁)
      | _ => none := rfl

theorem runMetaNil (f : Nat) (st : CompileState) (slug : String) (acc : EntryMetaData) :
    run (f + 1) st (.meta slug acc []) = some (.metaDone acc, st) := rfl

theorem runMetaSkip (f : Nat) (st : CompileState) (slug : String) (acc : EntryMetaData)
    (key : String) (value : HTMLContent) (rest : List (String × HTMLContent))
    (hk : key = KEY_SLUG) :
    run (f + 1) st (.meta slug acc ((key, value) :: rest)) =
      run f st (.meta slug acc rest) := by
  have : run (f + 1) st (.meta slug acc ((key, value) :: rest)) =
      if key = KEY_SLUG then run f st (.meta slug acc rest)
      else
        match run f st (.shallow (metadata_to_section value slug)) with
        | some (.built sec, st₁) =>
          run f st₁ (.meta slug (aupdate acc key sec.spanned) rest)
        | _ => none := rfl
  rw [this, if_pos hk]

theorem runMetaField (f : Nat) (st : CompileState) (slug : String) (acc : EntryMetaData)
    (key : String) (value : HTMLContent) (rest : List (String × HTMLContent))
    (hk : key ≠ KEY_SLUG) :
    run (f + 1) st (.meta slug acc ((key, value) :: rest)) =
      match run f st (.shallow (metadata_to_section value slug)) with
      | some (.built sec, st₁) =>
        run f st₁ (.meta slug (aupdate acc key sec.spanned) rest)
      | _ => none := by
  have : run (f + 1) st (.meta slug acc ((key, value) :: rest)) =
      if key = KEY_SLUG then run f st (.meta slug acc rest)
      else
        match run f st (.shallow (metadata_to_section value slug)) with
        | some (.built sec, st₁) =>
          run f st₁ (.meta slug (aupdate acc key sec.spanned) rest)
        | _ => none := rfl
  rw [this, if_neg hk]

def Req.kind : Req → Nat
  | .fetch _ => 0
  | .shallow _ => 1
  | .items _ _ _ _ => 2
  | .meta _ _ _ => 3

def Resp.kind : Resp → Nat
  | .fetched _ => 0
  | .built _ => 1
  | .itemsDone _ _ _ => 2
  | .metaDone _ => 3

/-- Each request kind is answered by the matching response kind. -/
def respOk (req : Req) (r : Resp) : Prop := req.kind = r.kind

/-- Basic run facts: the response kind matches the request, the pending
table only ever shrinks (as a sublist), and compiled keys are never
dropped. -/
theorem run_basic : ∀ fuel st req r st₁, run fuel st req = some (r, st₁) →
    respOk req r ∧ st₁.residued.Sublist st.residued ∧
      ∀ s ∈ akeys st.compiled, s ∈ akeys st₁.compiled := by
  intro fuel
  induction fuel with
  | zero =>
    intro st req r st₁ h
    simp [run] at h
  | succ f ih =>
    intro st req r st₁ h
    cases req with
    | fetch slug =>
      simp only [run] at h
      split at h
      · rename_i sec heq
        obtain ⟨rfl, rfl⟩ := by simpa using h
        exact ⟨rfl, List.Sublist.refl _, fun s hs => hs⟩
      · split at h
        · rename_i sh heqr
          split at h
          · rename_i sec st₂ heqrun
            obtain ⟨rfl, rfl⟩ := by simpa using h
            obtain ⟨_, hB, hC⟩ := ih _ _ _ _ heqrun
            refine ⟨rfl, hB.trans (aerase_sublist _ _), hC⟩
          · simp at h
        · obtain ⟨rfl, rfl⟩ := by simpa using h
          exact ⟨rfl, List.Sublist.refl _, fun s hs => hs⟩
    | shallow sh =>
      simp only [run] at h
      split at h
      · -- Plain content
        rename_i html heqc
        split at h
        · rename_i md st₂ heqm
          obtain ⟨rfl, rfl⟩ := by simpa using h
          obtain ⟨_, hB, hC⟩ := ih _ _ _ _ heqm
          refine ⟨rfl, (aerase_sublist _ _).trans hB, ?_⟩
          intro s hs
          exact mem_akeys_aupdate.mpr (Or.inl (hC s hs))
        · simp at h
      · -- Lazy content
        rename_i lcs heqc
        split at h
        · rename_i children refs cb st₂ heqi
          split at h
          · rename_i md st₃ heqm
            obtain ⟨rfl, rfl⟩ := by simpa using h
            obtain ⟨_, hB1, hC1⟩ := ih _ _ _ _ heqi
            obtain ⟨_, hB2, hC2⟩ := ih _ _ _ _ heqm
            refine ⟨rfl, (aerase_sublist _ _).trans (hB2.trans hB1), ?_⟩
            intro s hs
            exact mem_akeys_aupdate.mpr (Or.inl (hC2 s (hC1 s hs)))
          · simp at h
        · simp at h
    | items slug refs cb lcs =>
      cases lcs with
      | nil =>
        simp only [run] at h
        obtain ⟨rfl, rfl⟩ := by simpa using h
        exact ⟨rfl, List.Sublist.refl _, fun s hs => hs⟩
      | cons lc rest =>
        cases lc with
        | Plain html =>
          simp only [run] at h
          split at h
          · rename_i cs rr cc st₂ heqr
            obtain ⟨rfl, rfl⟩ := by simpa using h
            obtain ⟨_, hB, hC⟩ := ih _ _ _ _ heqr
            exact ⟨rfl, hB, hC⟩
          · simp at h
        | Embed ec =>
          simp only [run] at h
          split at h
          · -- fetch returned none: diagnose and skip
            rename_i st₂ heqf
            obtain ⟨_, hB1, hC1⟩ := ih _ _ _ _ heqf
            obtain ⟨hA2, hB2, hC2⟩ := ih _ _ _ _ h
            exact ⟨hA2, hB2.trans hB1, fun s hs => hC2 s (hC1 s hs)⟩
          · -- fetch returned a section
            rename_i refered st₂ heqf
            split at h
            · rename_i cs rr cc st₃ heqr
              obtain ⟨rfl, rfl⟩ := by simpa using h
              obtain ⟨_, hB1, hC1⟩ := ih _ _ _ _ heqf
              obtain ⟨_, hB2, hC2⟩ := ih _ _ _ _ heqr
              exact ⟨rfl, hB2.trans hB1, fun s hs => hC2 s (hC1 s hs)⟩
            · simp at h
          · simp at h
        | Local ll =>
          simp only [run] at h
          split at h
          · rename_i cs rr cc st₂ heqr
            obtain ⟨rfl, rfl⟩ := by simpa using h
            obtain ⟨_, hB, hC⟩ := ih _ _ _ _ heqr
            exact ⟨rfl, hB, hC⟩
          · simp at h
    | meta slug acc entries =>
      cases entries with
      | nil =>
        simp only [run] at h
        obtain ⟨rfl, rfl⟩ := by simpa using h
        exact ⟨rfl, List.Sublist.refl _, fun s hs => hs⟩
      | cons e rest =>
        obtain ⟨key, value⟩ := e
        simp only [run] at h
        split at h
        · -- identity key: skip
          obtain ⟨hA, hB, hC⟩ := ih _ _ _ _ h
          exact ⟨hA, hB, hC⟩
        · split at h
          · rename_i sec st₂ heqs
            obtain ⟨_, hB1, hC1⟩ := ih _ _ _ _ heqs
            obtain ⟨hA2, hB2, hC2⟩ := ih _ _ _ _ h
            exact ⟨hA2, hB2.trans hB1, fun s hs => hC2 s (hC1 s hs)⟩
          · simp at h

theorem csize_pos (c : HTMLContent) : 1 ≤ csize c := by
  cases c <;> simp [csize]

theorem msize_nil : msize [] = 0 := rfl

theorem msize_cons (p : String × HTMLContent) (l : List (String × HTMLContent)) :
    msize (p :: l) = mweight p + msize l := rfl

theorem mweight_pos (p : String × HTMLContent) : 1 ≤ mweight p := by
  by_cases h : p.1 = KEY_SLUG
  · simp [mweight, h]
  · simp [mweight, h]
    omega

theorem ssize_metadata_to_section (v : HTMLContent) (slug : String) :
    ssize (metadata_to_section v slug) = csize v + 2 := by
  simp [ssize, metadata_to_section, msize_cons, msize_nil, mweight, KEY_SLUG]
  omega

theorem ssize_eq (sh : ShallowSection) :
    ssize sh = 1 + csize sh.content + msize sh.metadata := rfl

/-- Fuel sufficiency: `rbound` fuel always suffices, so the fuel index is
no restriction — it only mirrors the termination argument of the Rust
recursion (removal from `residued` before each descent). -/
theorem run_suff : ∀ fuel st req, rbound st req < fuel → (run fuel st req).isSome := by
  intro fuel
  induction fuel with
  | zero =>
    intro st req hb
    exact absurd hb (by omega)
  | succ f ih =>
    intro st req hb
    cases req with
    | fetch slug =>
      cases hc : alookup st.compiled slug with
      | some sec =>
        rw [run_fetch_hit f st slug sec hc]
        simp
      | none =>
        cases hr : alookup st.residued slug with
        | some sh =>
          have hphi := phi_alookup hr
          have hbb : rbound { st with residued := aerase st.residued slug } (.shallow sh) < f := by
            simp only [rbound] at hb ⊢
            omega
          obtain ⟨⟨r, st₂⟩, heq⟩ := Option.isSome_iff_exists.mp (ih _ _ hbb)
          obtain ⟨hA, _, _⟩ := run_basic _ _ _ _ _ heq
          rw [run_fetch_pending f st slug sh hc hr, heq]
          cases r with
          | built sec => simp
          | fetched o => simp [respOk, Req.kind, Resp.kind] at hA
          | itemsDone a b c => simp [respOk, Req.kind, Resp.kind] at hA
          | metaDone a => simp [respOk, Req.kind, Resp.kind] at hA
        | none =>
          rw [run_fetch_miss f st slug hc hr]
          simp
    | shallow sh =>
      have hms : ssize sh = 1 + csize sh.content + msize sh.metadata := ssize_eq sh
      cases hcc : sh.content with
      | Plain html =>
        have hcs : csize sh.content = 1 := by rw [hcc]; rfl
        have hbb : rbound st (.meta sh.slugOf (aupdate [] KEY_SLUG sh.slugOf) sh.metadata) < f := by
          simp only [rbound] at hb ⊢
          omega
        obtain ⟨⟨r, st₂⟩, heq⟩ := Option.isSome_iff_exists.mp (ih _ _ hbb)
        obtain ⟨hA, _, _⟩ := run_basic _ _ _ _ _ heq
        rw [run_shallow_plain f st sh html hcc, heq]
        cases r with
        | metaDone md => simp
        | fetched o => simp [respOk, Req.kind, Resp.kind] at hA
        | built s => simp [respOk, Req.kind, Resp.kind] at hA
        | itemsDone a b c => simp [respOk, Req.kind, Resp.kind] at hA
      | Lazy lcs =>
        have hcs : csize sh.content = 1 + lcs.length := by rw [hcc]; rfl
        have hbb : rbound st (.items sh.slugOf [] Callback.new lcs) < f := by
          simp only [rbound] at hb ⊢
          omega
        obtain ⟨⟨r, st₂⟩, heq⟩ := Option.isSome_iff_exists.mp (ih _ _ hbb)
        obtain ⟨hA, hsub, _⟩ := run_basic _ _ _ _ _ heq
        rw [run_shallow_lazy f st sh lcs hcc, heq]
        cases r with
        | itemsDone children refs cb =>
          have hple : phi st₂.residued ≤ phi st.residued := phi_sublist_le hsub
          have hbb2 : rbound { st₂ with callback := st₂.callback.merge cb }
              (.meta sh.slugOf (aupdate [] KEY_SLUG sh.slugOf) sh.metadata) < f := by
            simp only [rbound] at hb ⊢
            omega
          obtain ⟨⟨r₂, st₃⟩, heq₂⟩ := Option.isSome_iff_exists.mp (ih _ _ hbb2)
          obtain ⟨hA₂, _, _⟩ := run_basic _ _ _ _ _ heq₂
          dsimp only
          rw [heq₂]
          cases r₂ with
          | metaDone md => simp
          | fetched o => simp [respOk, Req.kind, Resp.kind] at hA₂
          | built s => simp [respOk, Req.kind, Resp.kind] at hA₂
          | itemsDone a b c => simp [respOk, Req.kind, Resp.kind] at hA₂
        | fetched o => simp [respOk, Req.kind, Resp.kind] at hA
        | built s => simp [respOk, Req.kind, Resp.kind] at hA
        | metaDone a => simp [respOk, Req.kind, Resp.kind] at hA
    | items slug refs cb lcs =>
      cases lcs with
      | nil =>
        rw [run_items_nil f st slug refs cb]
        simp
      | cons lc rest =>
        cases lc with
        | Plain html =>
          have hbb : rbound st (.items slug refs cb rest) < f := by
            simp only [rbound, List.length_cons] at hb ⊢
            omega
          obtain ⟨⟨r, st₂⟩, heq⟩ := Option.isSome_iff_exists.mp (ih _ _ hbb)
          obtain ⟨hA, _, _⟩ := run_basic _ _ _ _ _ heq
          rw [run_items_plain f st slug refs cb html rest, heq]
          cases r with
          | itemsDone a b c => simp
          | fetched o => simp [respOk, Req.kind, Resp.kind] at hA
          | built s => simp [respOk, Req.kind, Resp.kind] at hA
          | metaDone a => simp [respOk, Req.kind, Resp.kind] at hA
        | Embed ec =>
          have hbb : rbound st (.fetch (to_slug ec.url)) < f := by
            simp only [rbound, List.length_cons] at hb ⊢
            omega
          obtain ⟨⟨r, st₂⟩, heq⟩ := Option.isSome_iff_exists.mp (ih _ _ hbb)
          obtain ⟨hA, hsub, _⟩ := run_basic _ _ _ _ _ heq
          have hple : phi st₂.residued ≤ phi st.residued := phi_sublist_le hsub
          rw [run_items_embed f st slug refs cb ec rest, heq]
          cases r with
          | fetched o =>
            cases o with
            | none =>
              have hbb2 : rbound
                  { st₂ with diagnostics := st₂.diagnostics ++ [(slug, to_slug ec.url)] }
                  (.items slug refs cb rest) < f := by
                simp only [rbound, List.length_cons] at hb ⊢
                omega
              exact ih _ _ hbb2
            | some refered =>
              have hbb2 : rbound st₂
                  (.items slug
                    (if ec.option.details_open then sextend refs refered.references else refs)
                    (cb.insert_parent (to_slug ec.url) slug) rest) < f := by
                simp only [rbound, List.length_cons] at hb ⊢
                omega
              obtain ⟨⟨r₂, st₃⟩, heq₂⟩ := Option.isSome_iff_exists.mp (ih _ _ hbb2)
              obtain ⟨hA₂, _, _⟩ := run_basic _ _ _ _ _ heq₂
              dsimp only
              rw [heq₂]
              cases r₂ with
              | itemsDone a b c => simp
              | fetched o => simp [respOk, Req.kind, Resp.kind] at hA₂
              | built s => simp [respOk, Req.kind, Resp.kind] at hA₂
              | metaDone a => simp [respOk, Req.kind, Resp.kind] at hA₂
          | built s => simp [respOk, Req.kind, Resp.kind] at hA
          | itemsDone a b c => simp [respOk, Req.kind, Resp.kind] at hA
          | metaDone a => simp [respOk, Req.kind, Resp.kind] at hA
        | Local ll =>
          have hbb : rbound st
              (.items slug
                (if is_reference st ll.slug then sinsert refs ll.slug else refs)
                (if ll.slug ≠ slug ∧ ll.slug ++ ":metadata" ≠ slug ∧ is_enable_backlinks st ll.slug
                 then cb.insert_backlinks ll.slug [slug] else cb)
                rest) < f := by
            simp only [rbound, List.length_cons] at hb ⊢
            omega
          obtain ⟨⟨r, st₂⟩, heq⟩ := Option.isSome_iff_exists.mp (ih _ _ hbb)
          obtain ⟨hA, _, _⟩ := run_basic _ _ _ _ _ heq
          rw [run_items_local f st slug refs cb ll rest, heq]
          cases r with
          | itemsDone a b c => simp
          | fetched o => simp [respOk, Req.kind, Resp.kind] at hA
          | built s => simp [respOk, Req.kind, Resp.kind] at hA
          | metaDone a => simp [respOk, Req.kind, Resp.kind] at hA
    | meta slug acc entries =>
      cases entries with
      | nil =>
        rw [runMetaNil f st slug acc]
        simp
      | cons e rest =>
        obtain ⟨key, value⟩ := e
        have hmw : msize ((key, value) :: rest) = mweight (key, value) + msize rest :=
          msize_cons _ _
        by_cases hk : key = KEY_SLUG
        · rw [runMetaSkip f st slug acc key value rest hk]
          have h1 : mweight (key, value) = 1 := by simp [mweight, hk]
          have hbb : rbound st (.meta slug acc rest) < f := by
            simp only [rbound] at hb ⊢
            omega
          exact ih _ _ hbb
        · rw [runMetaField f st slug acc key value rest hk]
          have h1 : mweight (key, value) = 3 + csize value := by simp [mweight, hk]
          have hbb : rbound st (.shallow (metadata_to_section value slug)) < f := by
            simp only [rbound, ssize_metadata_to_section] at hb ⊢
            omega
          obtain ⟨⟨r, st₂⟩, heq⟩ := Option.isSome_iff_exists.mp (ih _ _ hbb)
          obtain ⟨hA, hsub, _⟩ := run_basic _ _ _ _ _ heq
          have hple : phi st₂.residued ≤ phi st.residued := phi_sublist_le hsub
          rw [heq]
          cases r with
          | built sec =>
            have hbb2 : rbound st₂ (.meta slug (aupdate acc key sec.spanned) rest) < f := by
              simp only [rbound] at hb ⊢
              omega
            exact ih _ _ hbb2
          | fetched o => simp [respOk, Req.kind, Resp.kind] at hA
          | itemsDone a b c => simp [respOk, Req.kind, Resp.kind] at hA
          | metaDone a => simp [respOk, Req.kind, Resp.kind] at hA

theorem akeys_sublist_subset {α : Type} {l₁ l₂ : List (String × α)} (h : l₁.Sublist l₂) :
    ∀ s ∈ akeys l₁, s ∈ akeys l₂ :=
  fun _ hs => (h.map (fun p => p.1)).subset hs

theorem slugOf_metadata_to_section (v : HTMLContent) (slug : String) :
    (metadata_to_section v slug).slugOf = slug ++ ":metadata" := by
  simp [ShallowSection.slugOf, metadata_to_section, alookup]

theorem Inv_aerase {st : CompileState} (hI : Inv st) (slug : String) :
    Inv { st with residued := aerase st.residued slug } := by
  obtain ⟨h1, h2, h3, h4⟩ := hI
  refine ⟨nodup_akeys_aerase h1, h2, ?_, ?_⟩
  · intro p hp
    exact h3 p (aerase_subset _ _ p hp)
  · intro s hs
    exact h4 s (mem_akeys_aerase.mp hs).1

theorem Inv_finalize {st : CompileState} (hI : Inv st) (slug : String) (sec : Section) :
    Inv { st with
      residued := aerase st.residued slug,
      compiled := aupdate st.compiled slug sec } := by
  obtain ⟨h1, h2, h3, h4⟩ := hI
  refine ⟨nodup_akeys_aerase h1, nodup_akeys_aupdate h2, ?_, ?_⟩
  · intro p hp
    exact h3 p (aerase_subset _ _ p hp)
  · intro s hs
    obtain ⟨hmem, hne⟩ := mem_akeys_aerase.mp hs
    intro hc
    rcases mem_akeys_aupdate.mp hc with hc | hc
    · exact h4 s hmem hc
    · exact hne hc

/-- The slug a `.shallow` request will insert into the compiled table;
empty for the other request kinds. -/
def reqSlugs : Req → List String
  | .shallow sh => [sh.slugOf]
  | _ => []

/-- Master invariance of one run: well-formedness is preserved, no slug is
lost (pending slugs end up pending or compiled), every compiled key is an
old key, an old pending key, a synthetic metadata pseudo-slug, or the
slug of the request itself, and a `.shallow` request always ends with its slug
freshly stored in the compiled table. -/
theorem run_master : ∀ fuel st req r st₁, Inv st → run fuel st req = some (r, st₁) →
    Inv st₁ ∧
    (∀ s, s ∈ akeys st.residued ∨ s ∈ akeys st.compiled →
      s ∈ akeys st₁.residued ∨ s ∈ akeys st₁.compiled) ∧
    (∀ s ∈ akeys st₁.compiled,
      s ∈ akeys st.compiled ∨ s ∈ akeys st.residued ∨ isMetaSlug s ∨ s ∈ reqSlugs req) ∧
    (∀ sh, req = .shallow sh → ∃ sec, r = .built sec ∧
      alookup st₁.compiled sh.slugOf = some sec) := by
  intro fuel
  induction fuel with
  | zero =>
    intro st req r st₁ hI h
    simp [run] at h
  | succ f ih =>
    intro st req r st₁ hI h
    cases req with
    | fetch slug =>
      cases hc : alookup st.compiled slug with
      | some sec =>
        rw [run_fetch_hit f st slug sec hc] at h
        obtain ⟨rfl, rfl⟩ := by simpa using h
        refine ⟨hI, fun s hs => hs, fun s hs => Or.inl hs, ?_⟩
        intro sh heq
        simp at heq
      | none =>
        cases hr : alookup st.residued slug with
        | some sh =>
          rw [run_fetch_pending f st slug sh hc hr] at h
          cases hrun : run f { st with residued := aerase st.residued slug } (.shallow sh) with
          | none => rw [hrun] at h; simp at h
          | some p =>
            obtain ⟨r₂, st₂⟩ := p
            rw [hrun] at h
            have hI₂ : Inv { st with residued := aerase st.residued slug } := Inv_aerase hI slug
            obtain ⟨hIa, hd, he, hh⟩ := ih _ _ _ _ hI₂ hrun
            obtain ⟨sec, rfl, hstored⟩ := hh sh rfl
            obtain ⟨rfl, rfl⟩ := by simpa using h
            have hslug : sh.slugOf = slug := hI.2.2.1 (slug, sh) (alookup_mem hr)
            refine ⟨hIa, ?_, ?_, ?_⟩
            · intro s hs
              by_cases hss : s = slug
              · subst hss
                right
                rw [hslug] at hstored
                exact mem_akeys_of_alookup hstored
              · refine hd s ?_
                rcases hs with hs | hs
                · exact Or.inl (mem_akeys_aerase.mpr ⟨hs, hss⟩)
                · exact Or.inr hs
            · intro s hs
              rcases he s hs with hm | hm | hm | hm
              · exact Or.inl hm
              · exact Or.inr (Or.inl (mem_akeys_aerase.mp hm).1)
              · exact Or.inr (Or.inr (Or.inl hm))
              · simp only [reqSlugs, List.mem_singleton] at hm
                subst hm
                rw [hslug]
                exact Or.inr (Or.inl (mem_akeys_of_alookup hr))
            · intro sh₂ heq
              simp at heq
        | none =>
          rw [run_fetch_miss f st slug hc hr] at h
          obtain ⟨rfl, rfl⟩ := by simpa using h
          refine ⟨hI, fun s hs => hs, fun s hs => Or.inl hs, ?_⟩
          intro sh heq
          simp at heq
    | shallow sh =>
      cases hcc : sh.content with
      | Plain html =>
        rw [run_shallow_plain f st sh html hcc] at h
        cases hrun : run f st (.meta sh.slugOf (aupdate [] KEY_SLUG sh.slugOf) sh.metadata) with
        | none => rw [hrun] at h; simp at h
        | some p =>
          obtain ⟨r₂, st₂⟩ := p
          rw [hrun] at h
          obtain ⟨hIa, hd, he, _⟩ := ih _ _ _ _ hI hrun
          cases r₂ with
          | metaDone md =>
            obtain ⟨rfl, rfl⟩ := by simpa using h
            refine ⟨Inv_finalize hIa sh.slugOf _, ?_, ?_, ?_⟩
            · intro s hs
              rcases hd s hs with hm | hm
              · by_cases hss : s = sh.slugOf
                · exact Or.inr (mem_akeys_aupdate.mpr (Or.inr hss))
                · exact Or.inl (mem_akeys_aerase.mpr ⟨hm, hss⟩)
              · exact Or.inr (mem_akeys_aupdate.mpr (Or.inl hm))
            · intro s hs
              rcases mem_akeys_aupdate.mp hs with hm | hm
              · rcases he s hm with hx | hx | hx | hx
                · exact Or.inl hx
                · exact Or.inr (Or.inl hx)
                · exact Or.inr (Or.inr (Or.inl hx))
                · simp [reqSlugs] at hx
              · subst hm
                exact Or.inr (Or.inr (Or.inr (by simp [reqSlugs])))
            · intro sh₂ heq
              obtain rfl : sh₂ = sh := by cases heq; rfl
              exact ⟨_, rfl, alookup_aupdate_self _ _ _⟩
          | fetched o => simp at h
          | built s => simp at h
          | itemsDone a b c => simp at h
      | Lazy lcs =>
        rw [run_shallow_lazy f st sh lcs hcc] at h
        cases hrun : run f st (.items sh.slugOf [] Callback.new lcs) with
        | none => rw [hrun] at h; simp at h
        | some p =>
          obtain ⟨r₂, st₂⟩ := p
          rw [hrun] at h
          cases r₂ with
          | itemsDone children refs cb =>
            dsimp only at h
            obtain ⟨hIa, hd, he, _⟩ := ih _ _ _ _ hI hrun
            obtain ⟨_, hsub, _⟩ := run_basic _ _ _ _ _ hrun
            cases hrun₂ : run f { st₂ with callback := st₂.callback.merge cb }
                (.meta sh.slugOf (aupdate [] KEY_SLUG sh.slugOf) sh.metadata) with
            | none => rw [hrun₂] at h; simp at h
            | some p₂ =>
              obtain ⟨r₃, st₃⟩ := p₂
              rw [hrun₂] at h
              have hIb : Inv { st₂ with callback := st₂.callback.merge cb } := hIa
              obtain ⟨hIc, hd₂, he₂, _⟩ := ih _ _ _ _ hIb hrun₂
              cases r₃ with
              | metaDone md =>
                obtain ⟨rfl, rfl⟩ := by simpa using h
                refine ⟨Inv_finalize hIc sh.slugOf _, ?_, ?_, ?_⟩
                · intro s hs
                  rcases hd₂ s (hd s hs) with hm | hm
                  · by_cases hss : s = sh.slugOf
                    · exact Or.inr (mem_akeys_aupdate.mpr (Or.inr hss))
                    · exact Or.inl (mem_akeys_aerase.mpr ⟨hm, hss⟩)
                  · exact Or.inr (mem_akeys_aupdate.mpr (Or.inl hm))
                · intro s hs
                  rcases mem_akeys_aupdate.mp hs with hm | hm
                  · rcases he₂ s hm with hx | hx | hx | hx
                    · rcases he s hx with hy | hy | hy | hy
                      · exact Or.inl hy
                      · exact Or.inr (Or.inl hy)
                      · exact Or.inr (Or.inr (Or.inl hy))
                      · simp [reqSlugs] at hy
                    · exact Or.inr (Or.inl (akeys_sublist_subset hsub s hx))
                    · exact Or.inr (Or.inr (Or.inl hx))
                    · simp [reqSlugs] at hx
                  · subst hm
                    exact Or.inr (Or.inr (Or.inr (by simp [reqSlugs])))
                · intro sh₂ heq
                  obtain rfl : sh₂ = sh := by cases heq; rfl
                  exact ⟨_, rfl, alookup_aupdate_self _ _ _⟩
              | fetched o => simp at h
              | built s => simp at h
              | itemsDone a b c => simp at h
          | fetched o => simp at h
          | built s => simp at h
          | metaDone a => simp at h
    | items slug refs cb lcs =>
      cases lcs with
      | nil =>
        rw [run_items_nil f st slug refs cb] at h
        obtain ⟨rfl, rfl⟩ := by simpa using h
        refine ⟨hI, fun s hs => hs, fun s hs => Or.inl hs, ?_⟩
        intro sh heq
        simp at heq
      | cons lc rest =>
        cases lc with
        | Plain html =>
          rw [run_items_plain f st slug refs cb html rest] at h
          cases hrun : run f st (.items slug refs cb rest) with
          | none => rw [hrun] at h; simp at h
          | some p =>
            obtain ⟨r₂, st₂⟩ := p
            rw [hrun] at h
            obtain ⟨hIa, hd, he, _⟩ := ih _ _ _ _ hI hrun
            cases r₂ with
            | itemsDone a b c =>
              obtain ⟨rfl, rfl⟩ := by simpa using h
              refine ⟨hIa, hd, ?_, ?_⟩
              · intro s hs
                rcases he s hs with hx | hx | hx | hx
                · exact Or.inl hx
                · exact Or.inr (Or.inl hx)
                · exact Or.inr (Or.inr (Or.inl hx))
                · simp [reqSlugs] at hx
              · intro sh heq
                simp at heq
            | fetched o => simp at h
            | built s => simp at h
            | metaDone a => simp at h
        | Embed ec =>
          rw [run_items_embed f st slug refs cb ec rest] at h
          cases hrun : run f st (.fetch (to_slug ec.url)) with
          | none => rw [hrun] at h; simp at h
          | some p =>
            obtain ⟨r₂, st₂⟩ := p
            rw [hrun] at h
            obtain ⟨hIa, hd, he, _⟩ := ih _ _ _ _ hI hrun
            obtain ⟨_, hsub, _⟩ := run_basic _ _ _ _ _ hrun
            cases r₂ with
            | fetched o =>
              cases o with
              | none =>
                dsimp only at h
                have hIb : Inv { st₂ with
                    diagnostics := st₂.diagnostics ++ [(slug, to_slug ec.url)] } := hIa
                obtain ⟨hIc, hd₂, he₂, _⟩ := ih _ _ _ _ hIb h
                refine ⟨hIc, fun s hs => hd₂ s (hd s hs), ?_, ?_⟩
                · intro s hs
                  rcases he₂ s hs with hx | hx | hx | hx
                  · rcases he s hx with hy | hy | hy | hy
                    · exact Or.inl hy
                    · exact Or.inr (Or.inl hy)
                    · exact Or.inr (Or.inr (Or.inl hy))
                    · simp [reqSlugs] at hy
                  · exact Or.inr (Or.inl (akeys_sublist_subset hsub s hx))
                  · exact Or.inr (Or.inr (Or.inl hx))
                  · simp [reqSlugs] at hx
                · intro sh heq
                  simp at heq
              | some refered =>
                dsimp only at h
                cases hrun₂ : run f st₂
                    (.items slug
                      (if ec.option.details_open then sextend refs refered.references else refs)
                      (cb.insert_parent (to_slug ec.url) slug) rest) with
                | none => rw [hrun₂] at h; simp at h
                | some p₂ =>
                  obtain ⟨r₃, st₃⟩ := p₂
                  rw [hrun₂] at h
                  obtain ⟨hIc, hd₂, he₂, _⟩ := ih _ _ _ _ hIa hrun₂
                  cases r₃ with
                  | itemsDone a b c =>
                    obtain ⟨rfl, rfl⟩ := by simpa using h
                    refine ⟨hIc, fun s hs => hd₂ s (hd s hs), ?_, ?_⟩
                    · intro s hs
                      rcases he₂ s hs with hx | hx | hx | hx
                      · rcases he s hx with hy | hy | hy | hy
                        · exact Or.inl hy
                        · exact Or.inr (Or.inl hy)
                        · exact Or.inr (Or.inr (Or.inl hy))
                        · simp [reqSlugs] at hy
                      · exact Or.inr (Or.inl (akeys_sublist_subset hsub s hx))
                      · exact Or.inr (Or.inr (Or.inl hx))
                      · simp [reqSlugs] at hx
                    · intro sh heq
                      simp at heq
                  | fetched o => simp at h
                  | built s => simp at h
                  | metaDone a => simp at h
            | built s => simp at h
            | itemsDone a b c => simp at h
            | metaDone a => simp at h
        | Local ll =>
          rw [run_items_local f st slug refs cb ll rest] at h
          cases hrun : run f st
              (.items slug
                (if is_reference st ll.slug then sinsert refs ll.slug else refs)
                (if ll.slug ≠ slug ∧ ll.slug ++ ":metadata" ≠ slug ∧ is_enable_backlinks st ll.slug
                 then cb.insert_backlinks ll.slug [slug] else cb)
                rest) with
          | none => rw [hrun] at h; simp at h
          | some p =>
            obtain ⟨r₂, st₂⟩ := p
            rw [hrun] at h
            obtain ⟨hIa, hd, he, _⟩ := ih _ _ _ _ hI hrun
            cases r₂ with
            | itemsDone a b c =>
              obtain ⟨rfl, rfl⟩ := by simpa using h
              refine ⟨hIa, hd, ?_, ?_⟩
              · intro s hs
                rcases he s hs with hx | hx | hx | hx
                · exact Or.inl hx
                · exact Or.inr (Or.inl hx)
                · exact Or.inr (Or.inr (Or.inl hx))
                · simp [reqSlugs] at hx
              · intro sh heq
                simp at heq
            | fetched o => simp at h
            | built s => simp at h
            | metaDone a => simp at h
    | meta slug acc entries =>
      cases entries with
      | nil =>
        rw [runMetaNil f st slug acc] at h
        obtain ⟨rfl, rfl⟩ := by simpa using h
        refine ⟨hI, fun s hs => hs, fun s hs => Or.inl hs, ?_⟩
        intro sh heq
        simp at heq
      | cons e rest =>
        obtain ⟨key, value⟩ := e
        by_cases hk : key = KEY_SLUG
        · rw [runMetaSkip f st slug acc key value rest hk] at h
          obtain ⟨hIa, hd, he, _⟩ := ih _ _ _ _ hI h
          refine ⟨hIa, hd, ?_, ?_⟩
          · intro s hs
            rcases he s hs with hx | hx | hx | hx
            · exact Or.inl hx
            · exact Or.inr (Or.inl hx)
            · exact Or.inr (Or.inr (Or.inl hx))
            · simp [reqSlugs] at hx
          · intro sh heq
            simp at heq
        · rw [runMetaField f st slug acc key value rest hk] at h
          cases hrun : run f st (.shallow (metadata_to_section value slug)) with
          | none => rw [hrun] at h; simp at h
          | some p =>
            obtain ⟨r₂, st₂⟩ := p
            rw [hrun] at h
            obtain ⟨hIa, hd, he, _⟩ := ih _ _ _ _ hI hrun
            obtain ⟨_, hsub, _⟩ := run_basic _ _ _ _ _ hrun
            cases r₂ with
            | built sec =>
              dsimp only at h
              obtain ⟨hIc, hd₂, he₂, _⟩ := ih _ _ _ _ hIa h
              refine ⟨hIc, fun s hs => hd₂ s (hd s hs), ?_, ?_⟩
              · intro s hs
                rcases he₂ s hs with hx | hx | hx | hx
                · rcases he s hx with hy | hy | hy | hy
                  · exact Or.inl hy
                  · exact Or.inr (Or.inl hy)
                  · exact Or.inr (Or.inr (Or.inl hy))
                  · rw [reqSlugs, slugOf_metadata_to_section] at hy
                    simp only [List.mem_singleton] at hy
                    subst hy
                    exact Or.inr (Or.inr (Or.inl ⟨slug, rfl⟩))
                · exact Or.inr (Or.inl (akeys_sublist_subset hsub s hx))
                · exact Or.inr (Or.inr (Or.inl hx))
                · simp [reqSlugs] at hx
              · intro sh heq
                simp at heq
            | fetched o => simp at h
            | itemsDone a b c => simp at h
            | metaDone a => simp at h

/-- A request is safe for the compiled table when, if it is a direct
`.shallow` compilation, its slug is not already compiled (the
`fetch_section` discipline) or is a synthetic metadata pseudo-slug (the
`metadata_to_section` path). Both run-entry points of `state.rs` satisfy
this. -/
def reqSafeP (st : CompileState) : Req → Prop
  | .shallow sh => sh.slugOf ∉ akeys st.compiled ∨ isMetaSlug sh.slugOf
  | _ => True

/-- Once a real (non-pseudo) slug is compiled, its stored `Section` is
never modified by any further run. -/
theorem run_keeps : ∀ fuel st req r st₁ s sec, Inv st → reqSafeP st req →
    ¬isMetaSlug s → alookup st.compiled s = some sec →
    run fuel st req = some (r, st₁) → alookup st₁.compiled s = some sec := by
  intro fuel
  induction fuel with
  | zero =>
    intro st req r st₁ s sec hI hSafe hm hsec h
    simp [run] at h
  | succ f ih =>
    intro st req r st₁ s sec hI hSafe hm hsec h
    cases req with
    | fetch slug =>
      cases hc : alookup st.compiled slug with
      | some sec₂ =>
        rw [run_fetch_hit f st slug sec₂ hc] at h
        obtain ⟨rfl, rfl⟩ := by simpa using h
        exact hsec
      | none =>
        cases hr : alookup st.residued slug with
        | some sh =>
          rw [run_fetch_pending f st slug sh hc hr] at h
          cases hrun : run f { st with residued := aerase st.residued slug } (.shallow sh) with
          | none => rw [hrun] at h; simp at h
          | some p =>
            obtain ⟨r₂, st₂⟩ := p
            rw [hrun] at h
            cases r₂ with
            | built sec₂ =>
              obtain ⟨rfl, rfl⟩ := by simpa using h
              have hslug : sh.slugOf = slug := hI.2.2.1 (slug, sh) (alookup_mem hr)
              have hSafe₂ : reqSafeP { st with residued := aerase st.residued slug }
                  (.shallow sh) := by
                left
                rw [hslug]
                exact (alookup_eq_none _ _).mp hc
              exact ih _ _ _ _ s sec (Inv_aerase hI slug) hSafe₂ hm hsec hrun
            | fetched o => simp at h
            | itemsDone a b c => simp at h
            | metaDone a => simp at h
        | none =>
          rw [run_fetch_miss f st slug hc hr] at h
          obtain ⟨rfl, rfl⟩ := by simpa using h
          exact hsec
    | shallow sh =>
      have hne : s ≠ sh.slugOf := by
        rcases hSafe with hx | hx
        · intro hss
          exact hx (hss ▸ mem_akeys_of_alookup hsec)
        · intro hss
          exact hm (hss ▸ hx)
      cases hcc : sh.content with
      | Plain html =>
        rw [run_shallow_plain f st sh html hcc] at h
        cases hrun : run f st (.meta sh.slugOf (aupdate [] KEY_SLUG sh.slugOf) sh.metadata) with
        | none => rw [hrun] at h; simp at h
        | some p =>
          obtain ⟨r₂, st₂⟩ := p
          rw [hrun] at h
          cases r₂ with
          | metaDone md =>
            obtain ⟨rfl, rfl⟩ := by simpa using h
            have h₂ := ih _ _ _ _ s sec hI (by simp [reqSafeP]) hm hsec hrun
            exact (alookup_aupdate_ne _ _ hne).trans h₂
          | fetched o => simp at h
          | built s2 => simp at h
          | itemsDone a b c => simp at h
      | Lazy lcs =>
        rw [run_shallow_lazy f st sh lcs hcc] at h
        cases hrun : run f st (.items sh.slugOf [] Callback.new lcs) with
        | none => rw [hrun] at h; simp at h
        | some p =>
          obtain ⟨r₂, st₂⟩ := p
          rw [hrun] at h
          cases r₂ with
          | itemsDone children refs cb =>
            dsimp only at h
            obtain ⟨hIa, _, _, _⟩ := run_master _ _ _ _ _ hI hrun
            have h₂ := ih _ _ _ _ s sec hI (by simp [reqSafeP]) hm hsec hrun
            cases hrun₂ : run f { st₂ with callback := st₂.callback.merge cb }
                (.meta sh.slugOf (aupdate [] KEY_SLUG sh.slugOf) sh.metadata) with
            | none => rw [hrun₂] at h; simp at h
            | some p₂ =>
              obtain ⟨r₃, st₃⟩ := p₂
              rw [hrun₂] at h
              cases r₃ with
              | metaDone md =>
                obtain ⟨rfl, rfl⟩ := by simpa using h
                have hIb : Inv { st₂ with callback := st₂.callback.merge cb } := hIa
                have h₃ := ih _ _ _ _ s sec hIb (by simp [reqSafeP]) hm h₂ hrun₂
                exact (alookup_aupdate_ne _ _ hne).trans h₃
              | fetched o => simp at h
              | built s2 => simp at h
              | itemsDone a b c => simp at h
          | fetched o => simp at h
          | built s2 => simp at h
          | metaDone a => simp at h
    | items slug refs cb lcs =>
      cases lcs with
      | nil =>
        rw [run_items_nil f st slug refs cb] at h
        obtain ⟨rfl, rfl⟩ := by simpa using h
        exact hsec
      | cons lc rest =>
        cases lc with
        | Plain html =>
          rw [run_items_plain f st slug refs cb html rest] at h
          cases hrun : run f st (.items slug refs cb rest) with
          | none => rw [hrun] at h; simp at h
          | some p =>
            obtain ⟨r₂, st₂⟩ := p
            rw [hrun] at h
            cases r₂ with
            | itemsDone a b c =>
              obtain ⟨rfl, rfl⟩ := by simpa using h
              exact ih _ _ _ _ s sec hI (by simp [reqSafeP]) hm hsec hrun
            | fetched o => simp at h
            | built s2 => simp at h
            | metaDone a => simp at h
        | Embed ec =>
          rw [run_items_embed f st slug refs cb ec rest] at h
          cases hrun : run f st (.fetch (to_slug ec.url)) with
          | none => rw [hrun] at h; simp at h
          | some p =>
            obtain ⟨r₂, st₂⟩ := p
            rw [hrun] at h
            obtain ⟨hIa, _, _, _⟩ := run_master _ _ _ _ _ hI hrun
            have h₂ := ih _ _ _ _ s sec hI (by simp [reqSafeP]) hm hsec hrun
            cases r₂ with
            | fetched o =>
              cases o with
              | none =>
                dsimp only at h
                have hIb : Inv { st₂ with
                    diagnostics := st₂.diagnostics ++ [(slug, to_slug ec.url)] } := hIa
                exact ih _ _ _ _ s sec hIb (by simp [reqSafeP]) hm h₂ h
              | some refered =>
                dsimp only at h
                cases hrun₂ : run f st₂
                    (.items slug
                      (if ec.option.details_open then sextend refs refered.references else refs)
                      (cb.insert_parent (to_slug ec.url) slug) rest) with
                | none => rw [hrun₂] at h; simp at h
                | some p₂ =>
                  obtain ⟨r₃, st₃⟩ := p₂
                  rw [hrun₂] at h
                  cases r₃ with
                  | itemsDone a b c =>
                    obtain ⟨rfl, rfl⟩ := by simpa using h
                    exact ih _ _ _ _ s sec hIa (by simp [reqSafeP]) hm h₂ hrun₂
                  | fetched o => simp at h
                  | built s2 => simp at h
                  | metaDone a => simp at h
            | built s2 => simp at h
            | itemsDone a b c => simp at h
            | metaDone a => simp at h
        | Local ll =>
          rw [run_items_local f st slug refs cb ll rest] at h
          cases hrun : run f st
              (.items slug
                (if is_reference st ll.slug then sinsert refs ll.slug else refs)
                (if ll.slug ≠ slug ∧ ll.slug ++ ":metadata" ≠ slug ∧ is_enable_backlinks st ll.slug
                 then cb.insert_backlinks ll.slug [slug] else cb)
                rest) with
          | none => rw [hrun] at h; simp at h
          | some p =>
            obtain ⟨r₂, st₂⟩ := p
            rw [hrun] at h
            cases r₂ with
            | itemsDone a b c =>
              obtain ⟨rfl, rfl⟩ := by simpa using h
              exact ih _ _ _ _ s sec hI (by simp [reqSafeP]) hm hsec hrun
            | fetched o => simp at h
            | built s2 => simp at h
            | metaDone a => simp at h
    | meta slug acc entries =>
      cases entries with
      | nil =>
        rw [runMetaNil f st slug acc] at h
        obtain ⟨rfl, rfl⟩ := by simpa using h
        exact hsec
      | cons e rest =>
        obtain ⟨key, value⟩ := e
        by_cases hk : key = KEY_SLUG
        · rw [runMetaSkip f st slug acc key value rest hk] at h
          exact ih _ _ _ _ s sec hI (by simp [reqSafeP]) hm hsec h
        · rw [runMetaField f st slug acc key value rest hk] at h
          cases hrun : run f st (.shallow (metadata_to_section value slug)) with
          | none => rw [hrun] at h; simp at h
          | some p =>
            obtain ⟨r₂, st₂⟩ := p
            rw [hrun] at h
            cases r₂ with
            | built sec₂ =>
              dsimp only at h
              obtain ⟨hIa, _, _, _⟩ := run_master _ _ _ _ _ hI hrun
              have hSafe₂ : reqSafeP st (.shallow (metadata_to_section value slug)) := by
                right
                rw [slugOf_metadata_to_section]
                exact ⟨slug, rfl⟩
              have h₂ := ih _ _ _ _ s sec hI hSafe₂ hm hsec hrun
              exact ih _ _ _ _ s sec hIa (by simp [reqSafeP]) hm h₂ h
            | fetched o => simp at h
            | itemsDone a b c => simp at h
            | metaDone a => simp at h

/-- A fetch of a slug that is pending or compiled succeeds and leaves the
slug compiled. -/
theorem run_fetch_present (fuel : Nat) (st : CompileState) (s : String) (r : Resp)
    (st₁ : CompileState) (hI : Inv st)
    (hmem : s ∈ akeys st.residued ∨ s ∈ akeys st.compiled)
    (h : run fuel st (.fetch s) = some (r, st₁)) :
    ∃ sec, r = .fetched (some sec) ∧ s ∈ akeys st₁.compiled := by
  cases fuel with
  | zero => simp [run] at h
  | succ f =>
    cases hc : alookup st.compiled s with
    | some sec =>
      rw [run_fetch_hit f st s sec hc] at h
      obtain ⟨rfl, rfl⟩ := by simpa using h
      exact ⟨sec, rfl, mem_akeys_of_alookup hc⟩
    | none =>
      cases hr : alookup st.residued s with
      | some sh =>
        rw [run_fetch_pending f st s sh hc hr] at h
        cases hrun : run f { st with residued := aerase st.residued s } (.shallow sh) with
        | none => rw [hrun] at h; simp at h
        | some p =>
          obtain ⟨r₂, st₂⟩ := p
          rw [hrun] at h
          obtain ⟨_, _, _, hh⟩ := run_master _ _ _ _ _ (Inv_aerase hI s) hrun
          obtain ⟨sec, rfl, hstored⟩ := hh sh rfl
          obtain ⟨rfl, rfl⟩ := by simpa using h
          have hslug : sh.slugOf = s := hI.2.2.1 (s, sh) (alookup_mem hr)
          rw [hslug] at hstored
          exact ⟨sec, rfl, mem_akeys_of_alookup hstored⟩
      | none =>
        exfalso
        rcases hmem with hm | hm
        · obtain ⟨v, hv⟩ := mem_akeys_exists hm
          rw [hv] at hr
          exact Option.noConfusion hr
        · obtain ⟨v, hv⟩ := mem_akeys_exists hm
          rw [hv] at hc
          exact Option.noConfusion hc

/-- `compile` of a discovered slug, with enough fuel, succeeds and yields a
state satisfying all the preservation facts. -/
theorem compile_master (fuel : Nat) (st : CompileState) (s : String) (hI : Inv st)
    (hmem : s ∈ akeys st.residued ∨ s ∈ akeys st.compiled)
    (hf : 1 + phi st.residued < fuel) :
    ∃ sec st₁, compile fuel st s = .ok (sec, st₁) ∧ Inv st₁ ∧
      s ∈ akeys st₁.compiled ∧
      st₁.residued.Sublist st.residued ∧
      (∀ q, q ∈ akeys st.residued ∨ q ∈ akeys st.compiled →
        q ∈ akeys st₁.residued ∨ q ∈ akeys st₁.compiled) ∧
      (∀ q ∈ akeys st.compiled, q ∈ akeys st₁.compiled) ∧
      (∀ q ∈ akeys st₁.compiled,
        q ∈ akeys st.compiled ∨ q ∈ akeys st.residued ∨ isMetaSlug q) ∧
      (∀ q sec₂, ¬isMetaSlug q → alookup st.compiled q = some sec₂ →
        alookup st₁.compiled q = some sec₂) := by
  have hb : rbound st (.fetch s) < fuel := by
    simp only [rbound]
    omega
  obtain ⟨⟨r, st₁⟩, hrun⟩ := Option.isSome_iff_exists.mp (run_suff fuel st (.fetch s) hb)
  obtain ⟨sec, rfl, hcomp⟩ := run_fetch_present fuel st s r st₁ hI hmem hrun
  obtain ⟨hIa, hd, he, _⟩ := run_master _ _ _ _ _ hI hrun
  obtain ⟨_, hsub, hgrow⟩ := run_basic _ _ _ _ _ hrun
  have hkeep := fun q sec₂ hq hl => run_keeps _ _ _ _ _ q sec₂ hI (by simp [reqSafeP]) hq hl hrun
  refine ⟨sec, st₁, ?_, hIa, hcomp, hsub, ?_, hgrow, ?_, hkeep⟩
  · simp [compile, fetch_section, hrun]
  · exact hd
  · intro q hq
    rcases he q hq with hx | hx | hx | hx
    · exact Or.inl hx
    · exact Or.inr (Or.inl hx)
    · exact Or.inr (Or.inr hx)
    · simp [reqSlugs] at hx

/-- The orphan sweep of `compile_all`, on any list of slugs that are all
discovered, succeeds and compiles them all. -/
theorem sweep_master (fuel : Nat) : ∀ (L : List String) (st : CompileState), Inv st →
    (∀ q ∈ L, q ∈ akeys st.residued ∨ q ∈ akeys st.compiled) →
    1 + phi st.residued < fuel →
    ∃ st₁, sweep fuel st L = .ok st₁ ∧ Inv st₁ ∧
      (∀ q ∈ L, q ∈ akeys st₁.compiled) ∧
      st₁.residued.Sublist st.residued ∧
      (∀ q, q ∈ akeys st.residued ∨ q ∈ akeys st.compiled →
        q ∈ akeys st₁.residued ∨ q ∈ akeys st₁.compiled) ∧
      (∀ q ∈ akeys st.compiled, q ∈ akeys st₁.compiled) ∧
      (∀ q ∈ akeys st₁.compiled,
        q ∈ akeys st.compiled ∨ q ∈ akeys st.residued ∨ isMetaSlug q) ∧
      (∀ q sec₂, ¬isMetaSlug q → alookup st.compiled q = some sec₂ →
        alookup st₁.compiled q = some sec₂) := by
  intro L
  induction L with
  | nil =>
    intro st hI _ _
    exact ⟨st, rfl, hI, by simp, List.Sublist.refl _, fun q hq => hq,
      fun q hq => hq, fun q hq => Or.inl hq, fun q sec₂ _ hl => hl⟩
  | cons s rest ihL =>
    intro st hI hmem hf
    obtain ⟨sec, st₁, hcomp, hIa, hc, hsub, hd, hgrow, he, hkeep⟩ :=
      compile_master fuel st s hI (hmem s (List.mem_cons_self _ _)) hf
    have hf₂ : 1 + phi st₁.residued < fuel := by
      have := phi_sublist_le hsub
      omega
    have hmem₂ : ∀ q ∈ rest, q ∈ akeys st₁.residued ∨ q ∈ akeys st₁.compiled :=
      fun q hq => hd q (hmem q (List.mem_cons_of_mem _ hq))
    obtain ⟨st₂, hsweep, hIb, hall, hsub₂, hd₂, hgrow₂, he₂, hkeep₂⟩ := ihL st₁ hIa hmem₂ hf₂
    refine ⟨st₂, ?_, hIb, ?_, hsub₂.trans hsub, ?_, ?_, ?_, ?_⟩
    · simp [sweep, hcomp, hsweep]
    · intro q hq
      rcases List.mem_cons.mp hq with rfl | hq
      · exact hgrow₂ q hc
      · exact hall q hq
    · exact fun q hq => hd₂ q (hd q hq)
    · exact fun q hq => hgrow₂ q (hgrow q hq)
    · intro q hq
      rcases he₂ q hq with hx | hx | hx
      · rcases he q hx with hy | hy | hy
        · exact Or.inl hy
        · exact Or.inr (Or.inl hy)
        · exact Or.inr (Or.inr hy)
      · exact Or.inr (Or.inl (akeys_sublist_subset hsub q hx))
      · exact Or.inr (Or.inr hx)
    · exact fun q sec₂ hq hl => hkeep₂ q sec₂ hq (hkeep q sec₂ hq hl)

theorem residued_map_id (l : List (String × ShallowSection)) :
    l.map (fun p => (p.1, { p.2 with metadata := compute_textual_attrs p.2.metadata })) = l := by
  induction l with
  | nil => rfl
  | cons p rest ih =>
    rw [List.map_cons, ih]
    rfl

/-- `compile_all` unfolded: the textual-attribute hook is the identity in
the model, so the pending table is unchanged by the snapshot phase. -/
theorem compile_all_eq (fuel : Nat) (st : CompileState) :
    compile_all fuel st =
      match compile fuel
          { st with metadata := st.residued.map (fun p => (p.1, compute_textual_attrs p.2.metadata)) }
          "index" with
      | .ok (_, st₁) => sweep fuel st₁ (akeys st₁.residued)
      | .panicked => .panicked
      | .fuelOut => .fuelOut := by
  unfold compile_all
  rw [residued_map_id]

/-- `compile_all` on a well-formed state whose discovered set contains the
root, with enough fuel: it succeeds, empties the pending table, compiles
every discovered slug, and adds nothing but discovered slugs and synthetic
metadata pseudo-slugs. -/
theorem compile_all_master (fuel : Nat) (st : CompileState) (hI : Inv st)
    (hidx : "index" ∈ akeys st.residued ∨ "index" ∈ akeys st.compiled)
    (hf : 1 + phi st.residued < fuel) :
    ∃ st₁, compile_all fuel st = .ok st₁ ∧ Inv st₁ ∧ st₁.residued = [] ∧
      (∀ q, q ∈ akeys st.residued ∨ q ∈ akeys st.compiled → q ∈ akeys st₁.compiled) ∧
      (∀ q ∈ akeys st₁.compiled,
        q ∈ akeys st.compiled ∨ q ∈ akeys st.residued ∨ isMetaSlug q) ∧
      (∀ q sec₂, ¬isMetaSlug q → alookup st.compiled q = some sec₂ →
        alookup st₁.compiled q = some sec₂) := by
  obtain ⟨sec, st₁, hcomp, hIa, hc, hsub, hd, hgrow, he, hkeep⟩ :=
    compile_master fuel
      { st with metadata := st.residued.map (fun p => (p.1, compute_textual_attrs p.2.metadata)) }
      "index" hI hidx hf
  have hf₂ : 1 + phi st₁.residued < fuel := by
    have h1 := phi_sublist_le hsub
    have h0 : phi ({ st with
        metadata := st.residued.map (fun p => (p.1, compute_textual_attrs p.2.metadata)) } :
          CompileState).residued = phi st.residued := rfl
    omega
  obtain ⟨st₂, hsweep, hIb, hall, hsub₂, hd₂, hgrow₂, he₂, hkeep₂⟩ :=
    sweep_master fuel (akeys st₁.residued) st₁ hIa (fun q hq => Or.inl hq) hf₂
  have hresnil : st₂.residued = [] := by
    rw [List.eq_nil_iff_forall_not_mem]
    intro p hp
    have hk : p.1 ∈ akeys st₂.residued := by
      simp only [akeys, List.mem_map]
      exact ⟨p, hp, rfl⟩
    have hk₁ : p.1 ∈ akeys st₁.residued :=
      akeys_sublist_subset hsub₂ p.1 hk
    have hkc : p.1 ∈ akeys st₂.compiled := hall p.1 hk₁
    exact hIb.2.2.2 p.1 hk hkc
  refine ⟨st₂, ?_, hIb, hresnil, ?_, ?_, ?_⟩
  · rw [compile_all_eq, hcomp]
    exact hsweep
  · intro q hq
    rcases hd q hq with hm | hm
    · exact hall q hm
    · exact hgrow₂ q hm
  · intro q hq
    rcases he₂ q hq with hx | hx | hx
    · rcases he q hx with hy | hy | hy
      · exact Or.inl hy
      · exact Or.inr (Or.inl hy)
      · exact Or.inr (Or.inr hy)
    · exact Or.inr (Or.inl (akeys_sublist_subset hsub q hx))
    · exact Or.inr (Or.inr hx)
  · exact fun q sec₂ hq hl => hkeep₂ q sec₂ hq (hkeep q sec₂ hq hl)

/- Observation helpers for concrete runs, and inversion of the wrappers. -/

/-- The compiled-table keys of a successful `compile_all` outcome. -/
def compiledKeysOf : Outcome CompileState → List String
  | .ok st => akeys st.compiled
  | _ => []

/-- The global backlink edges after a run. -/
def backlinksOf : Option (Resp × CompileState) → List (String × String)
  | some (_, st) => st.callback.backlinks
  | none => []

/-- The diagnostics after a run. -/
def diagnosticsOf : Option (Resp × CompileState) → List (String × String)
  | some (_, st) => st.diagnostics
  | none => []

/-- The compiled-table keys after a run. -/
def runCompiledKeys : Option (Resp × CompileState) → List String
  | some (_, st) => akeys st.compiled
  | none => []

/-- The pending-table keys after a run. -/
def runResiduedKeys : Option (Resp × CompileState) → List String
  | some (_, st) => akeys st.residued
  | none => []

/-- The number of content pieces of the compiled section of a slug after a
run. -/
def runChildCount (o : Option (Resp × CompileState)) (s : String) : Nat :=
  match o with
  | some (_, st) =>
    match alookup st.compiled s with
    | some sec => sec.children.length
    | none => 0
  | none => 0

/-- The backlinks of the per-node accumulator an item loop returned. -/
def itemsBacklinks : Option (Resp × CompileState) → List (String × String)
  | some (.itemsDone _ _ c, _) => c.backlinks
  | _ => []

/-- The reference set an item loop returned. -/
def itemsRefs : Option (Resp × CompileState) → List String
  | some (.itemsDone _ r _, _) => r
  | _ => []

/-- The rendered value stored under the pseudo-slug `"a:metadata"` after a
run. -/
def metaPseudoSpanned : Option (Resp × CompileState) → Option String
  | some (_, st) => (alookup st.compiled "a:metadata").map Section.spanned
  | none => none

theorem fetch_section_inv {fuel : Nat} {st : CompileState} {q : String}
    {o : Option Section} {st₁ : CompileState}
    (h : fetch_section fuel st q = some (o, st₁)) :
    run fuel st (.fetch q) = some (.fetched o, st₁) := by
  unfold fetch_section at h
  cases hrun : run fuel st (.fetch q) with
  | none => rw [hrun] at h; simp at h
  | some p =>
    obtain ⟨r, st₂⟩ := p
    rw [hrun] at h
    cases r with
    | fetched o₂ =>
      obtain ⟨rfl, rfl⟩ := by simpa using h
      rfl
    | built s => simp at h
    | itemsDone a b c => simp at h
    | metaDone a => simp at h

theorem short_not_metaSlug (s : String) (h : s.length < 9) : ¬isMetaSlug s := by
  rintro ⟨t, rfl⟩
  rw [String.length_append] at h
  have : (":metadata" : String).length = 9 := rfl
  omega

/- Concrete example states used by witnesses and counterexamples. -/

/-- A plain root document. -/
def wShIdx : ShallowSection := ⟨[(KEY_SLUG, .Plain "index")], .Plain "hello"⟩

/-- A well-formed one-document state containing the root. -/
def wStIdx : CompileState := ⟨[("index", wShIdx)], [], [], Callback.new, []⟩

/-- A root document with one extra metadata field. -/
def exShC1 : ShallowSection :=
  ⟨[(KEY_SLUG, .Plain "index"), ("title", .Plain "T")], .Plain "hello"⟩

def exStC1 : CompileState := ⟨[("index", exShC1)], [], [], Callback.new, []⟩

/-- A state whose only document is not the root. -/
def exStC2 : CompileState :=
  ⟨[("a", ⟨[(KEY_SLUG, .Plain "a")], .Plain "x"⟩)], [], [], Callback.new, []⟩

/-- A document holding a local link to its own metadata pseudo-slug. -/
def exStC3 : CompileState :=
  ⟨[("a", ⟨[(KEY_SLUG, .Plain "a")], .Lazy [.Local ⟨"a:metadata", none⟩]⟩)],
    [], [], Callback.new, []⟩

/-- A document with two non-identity metadata fields. -/
def exStC4 : CompileState :=
  ⟨[("a", ⟨[(KEY_SLUG, .Plain "a"), ("f1", .Plain "x"), ("f2", .Plain "y")], .Plain "body"⟩)],
    [], [], Callback.new, []⟩

/-- The empty state. -/
def emptyState : CompileState := ⟨[], [], [], Callback.new, []⟩

/-- The mutual-embedding cycle: `a` embeds `b`, `b` embeds `a`. -/
def shCycA : ShallowSection :=
  ⟨[(KEY_SLUG, .Plain "a")], .Lazy [.Embed ⟨"b", ⟨true⟩, none⟩]⟩

def shCycB : ShallowSection :=
  ⟨[(KEY_SLUG, .Plain "b")], .Lazy [.Embed ⟨"a", ⟨true⟩, none⟩]⟩

def stCyc : CompileState := ⟨[("a", shCycA), ("b", shCycB)], [], [], Callback.new, []⟩

/-- A document whose metadata field links to another document. -/
def exStC6 : CompileState :=
  ⟨[("a", ⟨[(KEY_SLUG, .Plain "a"), ("note", .Lazy [.Local ⟨"b", none⟩])], .Plain "body"⟩)],
    [], [], Callback.new, []⟩

/-- A state with one already compiled target section. -/
def wSecT : Section := Section.new [("slug", "t"), ("title", "T")] [.Plain "tbody"] ["r1"]

def wStT : CompileState := ⟨[], [("t", wSecT)], [], Callback.new, []⟩

/- Claim theorems. -/

/-- Claim C1 counterexample: on a pending table holding exactly the root
document, which carries one extra metadata field, `compile_all` produces a
compiled table whose key set also contains the synthetic pseudo-slug
`"index:metadata"`, which was never in the pending table — so the compiled
key set is not exactly the originally pending key set. -/
theorem C1_counterexample :
    "index:metadata" ∈ compiledKeysOf (compile_all 20 exStC1) ∧
      "index:metadata" ∉ akeys exStC1.residued := by
  decide

/-- Claim C1 amended: after `compile_all` on a well-formed initial state with
an empty compiled table, a pending root, and enough fuel, the pending table
is empty, every originally pending slug is compiled, and every compiled
slug is an originally pending slug or a synthetic `"<slug>:metadata"`
pseudo-slug. -/
theorem C1_amended (fuel : Nat) (st : CompileState) (hI : Inv st)
    (hc0 : st.compiled = []) (hidx : "index" ∈ akeys st.residued)
    (hf : 1 + phi st.residued < fuel) :
    ∃ st₁, compile_all fuel st = .ok st₁ ∧ st₁.residued = [] ∧
      (∀ q ∈ akeys st.residued, q ∈ akeys st₁.compiled) ∧
      (∀ q ∈ akeys st₁.compiled, q ∈ akeys st.residued ∨ isMetaSlug q) := by
  obtain ⟨st₁, hca, hIa, hres, htot, hchar, _⟩ :=
    compile_all_master fuel st hI (Or.inl hidx) hf
  refine ⟨st₁, hca, hres, fun q hq => htot q (Or.inl hq), ?_⟩
  intro q hq
  rcases hchar q hq with hx | hx | hx
  · rw [hc0] at hx
    simp [akeys] at hx
  · exact Or.inl hx
  · exact Or.inr hx

theorem C1_amended_witness :
    ∃ st₁, compile_all 20 wStIdx = .ok st₁ ∧ st₁.residued = [] ∧
      (∀ q ∈ akeys wStIdx.residued, q ∈ akeys st₁.compiled) ∧
      (∀ q ∈ akeys st₁.compiled, q ∈ akeys wStIdx.residued ∨ isMetaSlug q) :=
  C1_amended 20 wStIdx (by decide) (by rfl) (by decide) (by decide)

/-- Claim C2 counterexample: on a pending table that lacks the root slug
`"index"`, `compile_all` panics (the `unwrap` in `compile`, line 34),
instead of completing. -/
theorem C2_counterexample : Outcome.isPanic (compile_all 10 exStC2) = true := by
  decide

/-- Claim C2 amended: provided the root slug `"index"` is discovered (pending
or compiled) in a well-formed state, `compile_all` with enough fuel
completes normally — no panic, no propagated failure; missing-target
lookups inside item resolution only log a diagnostic and omit the item. -/
theorem C2_amended (fuel : Nat) (st : CompileState) (hI : Inv st)
    (hidx : "index" ∈ akeys st.residued ∨ "index" ∈ akeys st.compiled)
    (hf : 1 + phi st.residued < fuel) :
    ∃ st₁, compile_all fuel st = .ok st₁ := by
  obtain ⟨st₁, hca, _⟩ := compile_all_master fuel st hI hidx hf
  exact ⟨st₁, hca⟩

theorem C2_amended_witness : ∃ st₁, compile_all 20 wStIdx = .ok st₁ :=
  C2_amended 20 wStIdx (by decide) (Or.inl (by decide)) (by decide)

/-- Claim C3 counterexample: during `compile_shallow` of the node `"a"`, a
Local link targeting the own metadata pseudo-slug `"a:metadata"` of the node
records one backlink edge — the code only suppresses the reversed case
(current slug equal to the pseudo-slug of the target), so the claimed
suppression does not happen. -/
theorem C3_counterexample :
    backlinksOf (run 10 exStC3 (.fetch "a")) = [("a:metadata", "a")] := by
  decide

/-- Claim C3 amended: during the item loop of a node with slug `P`, a Local
link to `T` records zero backlink edges iff `T = P`, or `P` is the
own metadata pseudo-slug `"T:metadata"` of `T`, or `T` has backlinks disabled;
otherwise it records exactly one edge `(T ← P)`. -/
theorem C3_amended (k : Nat) (st : CompileState) (slug : String) (refs : List String)
    (cb : Callback) (ll : LocalLink) :
    itemsBacklinks (run (k + 1 + 1) st (.items slug refs cb [.Local ll])) =
      cb.backlinks ++
        (if ll.slug = slug ∨ ll.slug ++ ":metadata" = slug ∨
            is_enable_backlinks st ll.slug = false
         then [] else [(ll.slug, slug)]) := by
  rw [run_items_local (k + 1) st slug refs cb ll [], run_items_nil k]
  dsimp only [itemsBacklinks]
  by_cases h1 : ll.slug = slug
  · rw [if_neg (by simp [h1]), if_pos (Or.inl h1)]
    simp
  · by_cases h2 : ll.slug ++ ":metadata" = slug
    · rw [if_neg (by simp [h2]), if_pos (Or.inr (Or.inl h2))]
      simp
    · by_cases hb3 : is_enable_backlinks st ll.slug = true
      · rw [if_pos ⟨h1, h2, hb3⟩, if_neg (by simp [h1, h2, hb3])]
        simp [Callback.insert_backlinks]
      · have hb3f : is_enable_backlinks st ll.slug = false := by
          simpa using hb3
        rw [if_neg (by simp [hb3f]), if_pos (Or.inr (Or.inr hb3f))]
        simp

/-- Claim C4 counterexample: a document `"a"` with two non-identity metadata
fields `f1`, `f2` compiles the pseudo-slug `"a:metadata"` once per field:
after processing `f1` alone the stored entry renders `"x"`, after both it
renders `"y"` — the entry under `"a:metadata"` is inserted twice and the
second insertion overwrites the first, contradicting insert-exactly-once. -/
theorem C4_counterexample :
    metaPseudoSpanned
        (run 10 emptyState (.meta "a" [("slug", "a")] [("f1", .Plain "x")])) = some "x" ∧
    metaPseudoSpanned
        (run 10 emptyState
          (.meta "a" [("slug", "a")] [("f1", .Plain "x"), ("f2", .Plain "y")])) = some "y" ∧
    metaPseudoSpanned (run 12 exStC4 (.fetch "a")) = some "y" := by
  decide

/-- Claim C4 amended: the compiled entry of a real (non pseudo) slug, once
present, is never modified by any further `fetch_section`; only synthetic
`"<slug>:metadata"` entries can be re-inserted (once per non-identity
metadata field, later insertions overwriting earlier ones). -/
theorem C4_amended (fuel : Nat) (st : CompileState) (q s : String) (sec : Section)
    (o : Option Section) (st₁ : CompileState) (hI : Inv st) (hm : ¬isMetaSlug s)
    (hsec : alookup st.compiled s = some sec)
    (h : fetch_section fuel st q = some (o, st₁)) :
    alookup st₁.compiled s = some sec :=
  run_keeps fuel st _ _ st₁ s sec hI (by simp [reqSafeP]) hm hsec (fetch_section_inv h)

theorem C4_amended_witness : alookup wStT.compiled "t" = some wSecT :=
  C4_amended 5 wStT "q" "t" wSecT none wStT (by decide)
    (short_not_metaSlug "t" (by decide)) (by rfl) (by rfl)

/-- Claim C5: (general) a fetch always terminates with a result when given fuel
beyond the potential of the pending table — the removal of a pending slug
before the recursive descent makes the potential strictly decrease;
(concrete) on the cycle `a` embeds `b`, `b` embeds `a`: both end up
compiled, the cyclic embed is omitted in `b` (whose resolution begins
second and closes the cycle), `a` keeps its embed of `b`, and exactly one
diagnostic `(b, a)` is emitted. -/
theorem C5_theorem :
    (∀ fuel (st : CompileState) (s : String), 1 + phi st.residued < fuel →
      (fetch_section fuel st s).isSome) ∧
    diagnosticsOf (run 12 stCyc (.fetch "a")) = [("b", "a")] ∧
    runCompiledKeys (run 12 stCyc (.fetch "a")) = ["b", "a"] ∧
    runResiduedKeys (run 12 stCyc (.fetch "a")) = [] ∧
    runChildCount (run 12 stCyc (.fetch "a")) "b" = 0 ∧
    runChildCount (run 12 stCyc (.fetch "a")) "a" = 1 := by
  constructor
  · intro fuel st s hf
    have hb : rbound st (.fetch s) < fuel := by
      simp only [rbound]
      omega
    obtain ⟨⟨r, st₁⟩, heq⟩ := Option.isSome_iff_exists.mp (run_suff fuel st (.fetch s) hb)
    obtain ⟨hA, _, _⟩ := run_basic _ _ _ _ _ heq
    cases r with
    | fetched o => simp [fetch_section, heq]
    | built s2 => simp [respOk, Req.kind, Resp.kind] at hA
    | itemsDone a b c => simp [respOk, Req.kind, Resp.kind] at hA
    | metaDone a => simp [respOk, Req.kind, Resp.kind] at hA
  · refine ⟨by decide, by decide, by decide, by decide, by decide⟩

theorem C5_witness : (fetch_section 12 stCyc "a").isSome :=
  C5_theorem.1 12 stCyc "a" (by decide)

/-- Claim C6 counterexample: compiling the document `"a"`, whose metadata
field `note` holds a Local link to `"b"`, records the backlink edge
`("b", "a:metadata")` — its source is the synthetic metadata pseudo-slug,
so pseudo-slugs are not excluded as backlink sources. -/
theorem C6_counterexample :
    backlinksOf (run 12 exStC6 (.fetch "a")) = [("b", "a:metadata")] ∧
      isMetaSlug "a:metadata" :=
  ⟨by decide, ⟨"a", rfl⟩⟩

/-- Claim C6 amended: inside a metadata pseudo-section (current slug
`"t:metadata"`), a Local link back to the parent document `t` records no
backlink edge — this is the special case the source actually suppresses;
links from a pseudo-section to other documents do record edges (with the
pseudo-slug as source), as the counterexample shows. -/
theorem C6_amended (k : Nat) (st : CompileState) (t : String) (txt : Option String)
    (refs : List String) (cb : Callback) :
    itemsBacklinks
        (run (k + 1 + 1) st (.items (t ++ ":metadata") refs cb [.Local ⟨t, txt⟩])) =
      cb.backlinks := by
  rw [run_items_local (k + 1) st (t ++ ":metadata") refs cb ⟨t, txt⟩ [], run_items_nil k]
  dsimp only [itemsBacklinks]
  rw [if_neg (by simp)]

/-- Claim C7: fetching an already compiled slug returns the stored section and
leaves the entire state unchanged — no recompilation, no table change, no
relationship edge. -/
theorem C7_theorem (fuel : Nat) (st : CompileState) (s : String) (sec : Section)
    (h : alookup st.compiled s = some sec) :
    fetch_section (fuel + 1) st s = some (some sec, st) := by
  simp [fetch_section, run_fetch_hit fuel st s sec h]

theorem C7_witness : fetch_section 5 wStT "t" = some (some wSecT, wStT) :=
  C7_theorem 4 wStT "t" wSecT (by rfl)

/-- Claim C8: an embed of an already resolved target pushes a clone with the
display option and title override of the embed applied, while the state —
including the canonical compiled entry of the target — is left exactly
unchanged. -/
theorem C8_theorem (k : Nat) (st : CompileState) (slug : String) (refs : List String)
    (cb : Callback) (ec : EmbedContent) (sec : Section)
    (h : alookup st.compiled (to_slug ec.url) = some sec) :
    run (k + 1 + 1 + 1) st (.items slug refs cb [.Embed ec]) =
      some (.itemsDone [SectionContent.Embed (embedClone sec ec)]
        (if ec.option.details_open then sextend refs sec.references else refs)
        (cb.insert_parent (to_slug ec.url) slug), st) ∧
    (embedClone sec ec).option = ec.option ∧
    (embedClone sec ec).children = sec.children ∧
    (embedClone sec ec).metadata =
      (match ec.title with
       | some t => aupdate sec.metadata "title" t
       | none => sec.metadata) := by
  refine ⟨?_, ?_, ?_, ?_⟩
  · rw [run_items_embed (k + 1 + 1) st slug refs cb ec [],
      run_fetch_hit (k + 1) st (to_slug ec.url) sec h]
    dsimp only
    rw [run_items_nil (k + 1)]
  · cases sec
    rfl
  · cases sec
    rfl
  · obtain ⟨u, op, ti⟩ := ec
    cases sec
    cases ti <;> rfl

theorem C8_witness :
    run 5 wStT (.items "p" [] Callback.new [.Embed ⟨"t", ⟨false⟩, some "TT"⟩]) =
      some (.itemsDone [SectionContent.Embed (embedClone wSecT ⟨"t", ⟨false⟩, some "TT"⟩)]
        [] (Callback.new.insert_parent "t" "p"), wStT) :=
  (C8_theorem 2 wStT "p" [] Callback.new ⟨"t", ⟨false⟩, some "TT"⟩ wSecT (by rfl)).1

/-- Claim C9: an embed of an already resolved target merges the reference
set of the target into the accumulator of the current node iff the display
option of the embed has `details_open` true; with it false the accumulator
gains nothing. -/
theorem C9_theorem (k : Nat) (st : CompileState) (slug : String) (refs : List String)
    (cb : Callback) (ec : EmbedContent) (sec : Section)
    (h : alookup st.compiled (to_slug ec.url) = some sec) :
    itemsRefs (run (k + 1 + 1 + 1) st (.items slug refs cb [.Embed ec])) =
      (if ec.option.details_open then sextend refs sec.references else refs) ∧
    (ec.option.details_open = true →
      ∀ x ∈ sec.references,
        x ∈ itemsRefs (run (k + 1 + 1 + 1) st (.items slug refs cb [.Embed ec]))) ∧
    (ec.option.details_open = false →
      itemsRefs (run (k + 1 + 1 + 1) st (.items slug refs cb [.Embed ec])) = refs) := by
  have hrun : run (k + 1 + 1 + 1) st (.items slug refs cb [.Embed ec]) =
      some (.itemsDone [SectionContent.Embed (embedClone sec ec)]
        (if ec.option.details_open then sextend refs sec.references else refs)
        (cb.insert_parent (to_slug ec.url) slug), st) := by
    rw [run_items_embed (k + 1 + 1) st slug refs cb ec [],
      run_fetch_hit (k + 1) st (to_slug ec.url) sec h]
    dsimp only
    rw [run_items_nil (k + 1)]
  rw [hrun]
  dsimp only [itemsRefs]
  refine ⟨rfl, ?_, ?_⟩
  · intro hopen x hx
    rw [if_pos hopen]
    exact mem_sextend.mpr (Or.inr hx)
  · intro hclosed
    rw [if_neg (by simp [hclosed])]

theorem C9_witness :
    itemsRefs (run 5 wStT (.items "p" [] Callback.new [.Embed ⟨"t", ⟨true⟩, none⟩])) =
      sextend [] wSecT.references :=
  (C9_theorem 2 wStT "p" [] Callback.new ⟨"t", ⟨true⟩, none⟩ wSecT (by rfl)).1.trans
    (by rw [if_pos rfl])

/-- Specification-side description of what one source item contributes to
the compiled content list, used to state order preservation: a `Plain`
item is kept unchanged, an `Embed` of an already-resolved target becomes
one `Embed` piece holding the overridden clone, a `Local` item becomes one
`Plain` piece holding its rendered anchor. -/
def renderItem (st : CompileState) : LazyContent → SectionContent Section
  | .Plain h => .Plain h
  | .Embed ec => .Embed (embedClone ((alookup st.compiled (to_slug ec.url)).getD
      (Section.new [] [] [])) ec)
  | .Local ll => .Plain (renderLocal st ll)

/-- Claim C10: the item loop processes source items in order and produces the
content list of their per-item renderings in the same order, leaving the
state unchanged when every embedded target is already resolved; in
particular `[Plain x, Local T, Plain y]` compiles to
`[Plain x, Plain (rendered anchor of T), Plain y]`. -/
theorem C10_theorem : ∀ (lcs : List LazyContent) (fuel : Nat) (st : CompileState)
    (slug : String) (refs : List String) (cb : Callback),
    (∀ ec, LazyContent.Embed ec ∈ lcs →
      ∃ sec, alookup st.compiled (to_slug ec.url) = some sec) →
    lcs.length < fuel →
    ∃ r c, run fuel st (.items slug refs cb lcs) =
      some (.itemsDone (lcs.map (renderItem st)) r c, st) := by
  intro lcs
  induction lcs with
  | nil =>
    intro fuel st slug refs cb _ hf
    cases fuel with
    | zero => omega
    | succ f => exact ⟨refs, cb, by rw [run_items_nil f]; rfl⟩
  | cons lc rest ih =>
    intro fuel st slug refs cb hres hf
    cases fuel with
    | zero => omega
    | succ f =>
      cases lc with
      | Plain html =>
        obtain ⟨r, c, heq⟩ := ih f st slug refs cb
          (fun ec hec => hres ec (List.mem_cons_of_mem _ hec))
          (by simpa using Nat.lt_of_succ_lt_succ hf)
        refine ⟨r, c, ?_⟩
        rw [run_items_plain f st slug refs cb html rest, heq]
        rfl
      | Embed ec =>
        obtain ⟨sec, hsec⟩ := hres ec (List.mem_cons_self _ _)
        cases f with
        | zero => simp at hf
        | succ g =>
          obtain ⟨r, c, heq⟩ := ih (g + 1) st slug
            (if ec.option.details_open then sextend refs sec.references else refs)
            (cb.insert_parent (to_slug ec.url) slug)
            (fun ec₂ hec => hres ec₂ (List.mem_cons_of_mem _ hec))
            (by simpa using Nat.lt_of_succ_lt_succ hf)
          refine ⟨r, c, ?_⟩
          rw [run_items_embed (g + 1) st slug refs cb ec rest,
            run_fetch_hit g st (to_slug ec.url) sec hsec]
          dsimp only
          rw [heq]
          have : renderItem st (LazyContent.Embed ec) =
              SectionContent.Embed (embedClone sec ec) := by
            simp [renderItem, hsec]
          rw [List.map_cons, this]
      | Local ll =>
        obtain ⟨r, c, heq⟩ := ih f st slug
          (if is_reference st ll.slug then sinsert refs ll.slug else refs)
          (if ll.slug ≠ slug ∧ ll.slug ++ ":metadata" ≠ slug ∧ is_enable_backlinks st ll.slug
           then cb.insert_backlinks ll.slug [slug] else cb)
          (fun ec hec => hres ec (List.mem_cons_of_mem _ hec))
          (by simpa using Nat.lt_of_succ_lt_succ hf)
        refine ⟨r, c, ?_⟩
        rw [run_items_local f st slug refs cb ll rest, heq]
        rfl

theorem C10_witness :
    ∃ r c, run 10 emptyState
        (.items "p" [] Callback.new [.Plain "x", .Local ⟨"t", none⟩, .Plain "y"]) =
      some (.itemsDone
        [SectionContent.Plain "x",
         SectionContent.Plain (renderLocal emptyState ⟨"t", none⟩),
         SectionContent.Plain "y"] r c, emptyState) := by
  obtain ⟨r, c, heq⟩ := C10_theorem [.Plain "x", .Local ⟨"t", none⟩, .Plain "y"]
    10 emptyState "p" [] Callback.new (by intro ec h; simp at h) (by decide)
  exact ⟨r, c, by simpa [renderItem] using heq⟩

end Kodama
